import Mathlib

/-!
# Dependency propagation of `ModFolderModel`

A shallow embedding of `launcher/minecraft/mod/ModFolderModel.cpp`:
`findById`, `ModFolderModel::onParseFinished`,
`ModFolderModel::getAffectedMods` and `ModFolderModel::setResourceEnabled`,
with the state they read and write.

Conventions of the embedding.

* A `Mod*` is the row of the mod in `m_resources` (`ModPtr`); `allMods()` is
  the list of all rows in order and `&at(row)` is `row`.  Reading through a
  pointer is `ModFolderModel.at`.  A pointer that is not a row of the model
  has no meaning in the program; `ModFolderModel.at` answers the default mod
  there, and the theorems that depend on what is read carry the hypothesis
  that pointers are rows.
* `QHash<QString, QList<Mod*>>` is an association list read with
  `QHash.value` (an absent key reads as the empty list, which is also what
  `operator[]` answers after inserting it) and written with `QHash.modify`.
* `QMap<QString, int> m_resources_index` is an association list read with
  `QMap.value` (an absent key reads as `0`).
* `emit dataChanged(...)` is a notification for the view and is not part of
  the state.
* The recursion of `getAffectedMods` is embedded with a fuel argument;
  `none` means the fuel ran out.
-/

namespace ModFolder

abbrev QString := String

/-- Modelled from the spec: `QVariant` is a Qt type defined outside
`ModFolderModel.cpp`; the spec calls project and addon ids opaque values, and the code only
compares them with `==`. -/
abbrev QVariant := String

/-- Modelled from the spec: the enum `ModPlatform::ResourceProvider` of
`modplatform/ModIndex.h` (outside `ModFolderModel.cpp`), the provider of a
mod's metadata. -/
inductive ResourceProvider where
  | MODRINTH
  | FLAME
  deriving DecidableEq, Inhabited

/-- Modelled from the spec: the enum `ModPlatform::DependencyType` of
`modplatform/ModIndex.h` (outside `ModFolderModel.cpp`), the requirement
kind of a metadata dependency; the code singles out `REQUIRED`. -/
inductive DependencyType where
  | REQUIRED
  | OPTIONAL
  | INCOMPATIBLE
  | EMBEDDED
  | TOOL
  | INCLUDE
  | UNKNOWN
  deriving DecidableEq, Inhabited

/-- The fields of `ModPlatform::Dependency` that `onParseFinished` reads. -/
structure Dependency where
  addonId : QVariant
  type : DependencyType
  deriving DecidableEq, Inhabited

/-- The fields of the metadata of a mod that `onParseFinished` reads. -/
structure Metadata where
  provider : ResourceProvider
  project_id : QVariant
  dependencies : List Dependency
  deriving DecidableEq, Inhabited

/-- The fields of `Mod` that the dependency code reads and writes. -/
structure Mod where
  internal_id : QString
  mod_id : QString
  enabled : Bool
  dependencies : List QString
  metadata : Option Metadata
  requiresCount : Nat
  requiredByCount : Nat
  deriving DecidableEq, Inhabited

/-- The enum `EnableAction`, with the three values the code names. -/
inductive EnableAction where
  | ENABLE
  | DISABLE
  | TOGGLE
  deriving DecidableEq, Inhabited

/-- The row and column of a `QModelIndex`. -/
structure QModelIndex where
  row : Nat
  column : Nat
  deriving DecidableEq, Inhabited

/-- A `Mod*`: the row of the mod in `m_resources`. -/
abbrev ModPtr := Nat

/-- The type `QHash<QString, QList<Mod*>>` of `m_requires` and `m_requiredBy`. -/
abbrev QHash := List (QString × List ModPtr)

/-- The type `QMap<QString, int>` of `m_resources_index`. -/
abbrev QMap := List (QString × Nat)

/-- The list stored under `key`; empty when the key is absent. -/
def QHash.value : QHash → QString → List ModPtr
  | [], _ => []
  | (k, v) :: rest, key => if k = key then v else QHash.value rest key

/-- The statement `f(h[key])` for an `f` that changes the list in place; an
absent key starts from the empty list. -/
def QHash.modify : QHash → QString → (List ModPtr → List ModPtr) → QHash
  | [], key, f => [(key, f [])]
  | (k, v) :: rest, key, f =>
    if k = key then (k, f v) :: rest else (k, v) :: QHash.modify rest key f

/-- The keys of the hash, `h.keys()`. -/
def QHash.keys (h : QHash) : List QString := h.map Prod.fst

/-- The row stored under `key`; `0` when the key is absent. -/
def QMap.value : QMap → QString → Nat
  | [], _ => 0
  | (k, v) :: rest, key => if k = key then v else QMap.value rest key

/-- The members of `ModFolderModel` (and of its base `ResourceFolderModel`)
that the dependency code uses. -/
structure ModFolderModel where
  m_resources : List Mod
  m_resources_index : QMap
  m_active_parse_tasks : List Nat
  m_requires : QHash
  m_requiredBy : QHash
  deriving DecidableEq, Inhabited

/-- What a `Mod*` points to. -/
def ModFolderModel.at (st : ModFolderModel) (p : ModPtr) : Mod :=
  st.m_resources.getD p default

/-- Modelled from the spec: `hasPendingParseTasks` belongs to the base class
`ResourceFolderModel`, defined outside `ModFolderModel.cpp`; parse tasks
are pending while the count of in-flight parse tasks is not zero. -/
def ModFolderModel.hasPendingParseTasks (st : ModFolderModel) : Bool :=
  !st.m_active_parse_tasks.isEmpty

/-- Modelled from the spec: `allMods` comes from `ResourceFolderModel.h`,
outside `ModFolderModel.cpp`; it enumerates all mods of the collection,
in order. -/
def ModFolderModel.allMods (st : ModFolderModel) : List ModPtr :=
  List.range st.m_resources.length

/-- Modelled from the spec: `selectedMods` comes from `ResourceFolderModel.h`,
outside `ModFolderModel.cpp`; the selection is the list of the
mods on the selected rows, one for each index of column 0. -/
def ModFolderModel.selectedMods (_st : ModFolderModel) (indexes : List QModelIndex) :
    List ModPtr :=
  (indexes.filter (fun i => i.column == 0)).map (fun i => i.row)

/-- The function `findById(mods, modId)`: the first mod of the list with that
`mod_id`. -/
def findById (st : ModFolderModel) (mods : List ModPtr) (modId : QString) : Option ModPtr :=
  mods.find? (fun m => (st.at m).mod_id == modId)

/-- The lambda `findByProjectID` of `onParseFinished`. -/
def findByProjectID (st : ModFolderModel) (mods : List ModPtr) (modId : QVariant)
    (provider : ResourceProvider) : Option ModPtr :=
  mods.find? (fun m =>
    match (st.at m).metadata with
    | none => false
    | some md => md.provider == provider && md.project_id == modId)

/-- The two statements `m_requires[id] << d; m_requiredBy[d->mod_id()] << mod;`
on the pair `(m_requires, m_requiredBy)`. -/
def addEdge (st : ModFolderModel) (maps : QHash × QHash) (mod d : ModPtr) : QHash × QHash :=
  (maps.1.modify (st.at mod).mod_id (fun l => l ++ [d]),
   maps.2.modify (st.at d).mod_id (fun l => l ++ [mod]))

/-- The loop over `mod->dependencies()`. -/
def declaredLoop (st : ModFolderModel) (mods : List ModPtr) (mod : ModPtr)
    (maps : QHash × QHash) : QHash × QHash :=
  (st.at mod).dependencies.foldl
    (fun acc dep =>
      match findById st mods dep with
      | some d => addEdge st acc mod d
      | none => acc)
    maps

/-- The loop over `mod->metadata()->dependencies`, run when the mod has metadata. -/
def metadataLoop (st : ModFolderModel) (mods : List ModPtr) (mod : ModPtr)
    (maps : QHash × QHash) : QHash × QHash :=
  match (st.at mod).metadata with
  | none => maps
  | some md =>
    md.dependencies.foldl
      (fun acc dep =>
        if dep.type = DependencyType.REQUIRED then
          match findByProjectID st mods dep.addonId md.provider with
          | some d => addEdge st acc mod d
          | none => acc
        else acc)
      maps

/-- The first `for (auto mod : mods)` loop of `onParseFinished`. -/
def buildLoop (st : ModFolderModel) (mods : List ModPtr) (maps : QHash × QHash) :
    QHash × QHash :=
  mods.foldl (fun acc mod => metadataLoop st mods mod (declaredLoop st mods mod acc)) maps

/-- The `std::remove_if` of the lambda `removeDuplicates`, with its `seen` set. -/
def removeDuplicatesAux (st : ModFolderModel) : List QString → List ModPtr → List ModPtr
  | _, [] => []
  | seen, m :: ms =>
    if (st.at m).mod_id ∈ seen then removeDuplicatesAux st seen ms
    else m :: removeDuplicatesAux st ((st.at m).mod_id :: seen) ms

/-- The lambda `removeDuplicates` of `onParseFinished`. -/
def removeDuplicates (st : ModFolderModel) (list : List ModPtr) : List ModPtr :=
  removeDuplicatesAux st [] list

/-- The loop `for (auto key : h.keys()) removeDuplicates(h[key]);`. -/
def dedupLoop (st : ModFolderModel) (h : QHash) : QHash :=
  h.keys.foldl (fun acc key => acc.modify key (removeDuplicates st)) h

/-- The body of the last loop of `onParseFinished` for the mod at one row. -/
def setCounts (requires requiredBy : QHash) (m : Mod) : Mod :=
  { m with
    requiredByCount := (requiredBy.value m.mod_id).length
    requiresCount := (requires.value m.mod_id).length }

/-- The method `ModFolderModel::onParseFinished`. -/
def onParseFinished (st : ModFolderModel) : ModFolderModel :=
  if st.hasPendingParseTasks then st
  else
    let mods := st.allMods
    let built := buildLoop st mods (st.m_requires, st.m_requiredBy)
    let requiredBy := dedupLoop st built.2
    let requires := dedupLoop st built.1
    { st with
      m_resources := st.m_resources.map (setCounts requires requiredBy)
      m_requires := requires
      m_requiredBy := requiredBy }

/-- The body of the loop `for (auto affected : mods)` of `getAffectedMods`,
on the pair `(seen, affectedList)`. -/
def visitAffected (st : ModFolderModel) (indexedMods : List ModPtr) (shouldBeEnabled : Bool)
    (acc : List QString × List QModelIndex) (affected : ModPtr) :
    List QString × List QModelIndex :=
  let affectedId := (st.at affected).mod_id
  if findById st indexedMods affectedId = none ∧ affectedId ∉ acc.1 then
    if shouldBeEnabled ≠ (st.at affected).enabled then
      (affectedId :: acc.1,
       acc.2 ++ [⟨st.m_resources_index.value (st.at affected).internal_id, 0⟩])
    else (affectedId :: acc.1, acc.2)
  else acc

/-- The `switch (action)` of `getAffectedMods`: the list walked for a mod id. -/
def neighbours (st : ModFolderModel) (action : EnableAction) (id : QString) : List ModPtr :=
  match action with
  | EnableAction.DISABLE => st.m_requiredBy.value id
  | EnableAction.ENABLE => st.m_requires.value id
  | EnableAction.TOGGLE => []

/-- The loop `for (auto mod : indexedMods)` of `getAffectedMods`. -/
def collectAffected (st : ModFolderModel) (indexedMods : List ModPtr) (action : EnableAction) :
    List QString × List QModelIndex :=
  indexedMods.foldl
    (fun acc mod =>
      (neighbours st action (st.at mod).mod_id).foldl
        (visitAffected st indexedMods (action == EnableAction.ENABLE)) acc)
    ([], [])

/-- The resolution of `TOGGLE` at the start of `getAffectedMods`: `none` is the
early `return {}`. -/
def resolveAction (st : ModFolderModel) (indexedMods : List ModPtr) (action : EnableAction) :
    Option EnableAction :=
  if action = EnableAction.TOGGLE then
    if indexedMods.length ≠ 1 then none
    else
      some (if (st.at (indexedMods.headD 0)).enabled then EnableAction.DISABLE
            else EnableAction.ENABLE)
  else some action

/-- The method `ModFolderModel::getAffectedMods`, with fuel for its recursion. -/
def getAffectedMods (st : ModFolderModel) :
    Nat → List QModelIndex → EnableAction → Option (List QModelIndex)
  | 0, _, _ => none
  | fuel + 1, indexes, action =>
    if indexes.isEmpty then some []
    else
      let indexedMods := st.selectedMods indexes
      match resolveAction st indexedMods action with
      | none => some []
      | some action =>
        let affectedList := (collectAffected st indexedMods action).2
        if !affectedList.isEmpty then
          match getAffectedMods st fuel (indexes ++ affectedList) action with
          | none => none
          | some more => some (affectedList ++ more)
        else some affectedList

/-! ## Well-formedness of a model -/

/-- The index `m_resources_index` sends the internal id of every row to that row
(the invariant `ResourceFolderModel` keeps between `m_resources` and its
index). -/
def WellIndexed (st : ModFolderModel) : Prop :=
  ∀ p ∈ st.allMods, st.m_resources_index.value (st.at p).internal_id = p

/-- The mods of the collection have pairwise distinct `mod_id`s. -/
def DistinctModIds (st : ModFolderModel) : Prop :=
  (st.m_resources.map Mod.mod_id).Nodup

/-- Every pointer of the list is a row of the model. -/
def ValidList (st : ModFolderModel) (l : List ModPtr) : Prop :=
  ∀ p ∈ l, p < st.m_resources.length

/-- Every list of the hash satisfies `P`. -/
def QHash.All (P : List ModPtr → Prop) (h : QHash) : Prop :=
  ∀ e ∈ h, P e.2

/-- Every list of the hash holds only rows of the model. -/
def ValidHash (st : ModFolderModel) (h : QHash) : Prop :=
  QHash.All (ValidList st) h

/-- Both adjacency mappings hold only mods of the collection. -/
def ValidMappings (st : ModFolderModel) : Prop :=
  ValidHash st st.m_requires ∧ ValidHash st st.m_requiredBy

/-- Every index of the selection lies on a row of the model. -/
def ValidSelection (st : ModFolderModel) (indexes : List QModelIndex) : Prop :=
  ∀ i ∈ indexes, i.row < st.m_resources.length

/-- The `mod_id`s of a list of mods. -/
def modIds (st : ModFolderModel) (l : List ModPtr) : List QString :=
  l.map (fun p => (st.at p).mod_id)

instance (st : ModFolderModel) : Decidable (WellIndexed st) := by
  unfold WellIndexed; infer_instance

instance (st : ModFolderModel) : Decidable (DistinctModIds st) := by
  unfold DistinctModIds; infer_instance

instance (st : ModFolderModel) (l : List ModPtr) : Decidable (ValidList st l) := by
  unfold ValidList; infer_instance

instance (st : ModFolderModel) (h : QHash) : Decidable (ValidHash st h) := by
  unfold ValidHash QHash.All; infer_instance

instance (st : ModFolderModel) : Decidable (ValidMappings st) := by
  unfold ValidMappings; infer_instance

instance (st : ModFolderModel) (indexes : List QModelIndex) :
    Decidable (ValidSelection st indexes) := by
  unfold ValidSelection; infer_instance

/-! ## The edges of a collection -/

/-- The mods the declared dependencies of `mod` resolve to, in order. -/
def declaredDeps (st : ModFolderModel) (mods : List ModPtr) (mod : ModPtr) : List ModPtr :=
  (st.at mod).dependencies.filterMap (fun dep => findById st mods dep)

/-- The mods the `REQUIRED` metadata dependencies of `mod` resolve to, in order. -/
def metadataDeps (st : ModFolderModel) (mods : List ModPtr) (mod : ModPtr) : List ModPtr :=
  match (st.at mod).metadata with
  | none => []
  | some md =>
    md.dependencies.filterMap (fun dep =>
      if dep.type = DependencyType.REQUIRED then
        findByProjectID st mods dep.addonId md.provider
      else none)

/-- The targets of the edges `onParseFinished` records for `mod`, in the order
it records them. -/
def resolvedDeps (st : ModFolderModel) (mods : List ModPtr) (mod : ModPtr) : List ModPtr :=
  declaredDeps st mods mod ++ metadataDeps st mods mod

/-- The edges `(mod, d)` the first loop of `onParseFinished` records while it
walks `ms`, in order. -/
def edgeList (st : ModFolderModel) (mods ms : List ModPtr) : List (ModPtr × ModPtr) :=
  ms.flatMap (fun a => (resolvedDeps st mods a).map (fun d => (a, d)))

/-! ## Notions used to state the properties -/

/-- Both adjacency mappings are empty. -/
def MappingsEmpty (st : ModFolderModel) : Prop :=
  st.m_requires = [] ∧ st.m_requiredBy = []

/-- The mod `b` is a member, by `mod_id`, of the list stored under `key`. -/
def MemById (st : ModFolderModel) (h : QHash) (key : QString) (b : ModPtr) : Prop :=
  (st.at b).mod_id ∈ modIds st (h.value key)

/-- The two mappings are inverse to each other on the mods of the collection:
`B ∈ requires[A]` iff `A ∈ requiredBy[B]`, membership taken by `mod_id`. -/
def Symmetric (st : ModFolderModel) : Prop :=
  ∀ a ∈ st.allMods, ∀ b ∈ st.allMods,
    (MemById st st.m_requires (st.at a).mod_id b ↔
      MemById st st.m_requiredBy (st.at b).mod_id a)

instance (st : ModFolderModel) : Decidable (MappingsEmpty st) := by
  unfold MappingsEmpty; infer_instance

instance (st : ModFolderModel) (h : QHash) (key : QString) (b : ModPtr) :
    Decidable (MemById st h key b) := by
  unfold MemById; infer_instance

instance (st : ModFolderModel) : Decidable (Symmetric st) := by
  unfold Symmetric; infer_instance

/-! ## Concrete collections -/

/-- A mod without metadata. -/
def localMod (internalId modId : QString) (enabled : Bool) (deps : List QString) : Mod :=
  { internal_id := internalId, mod_id := modId, enabled := enabled, dependencies := deps,
    metadata := none, requiresCount := 0, requiredByCount := 0 }

/-- A model over the given mods with a consistent index, no running parse
task and empty mappings. -/
def freshModel (mods : List Mod) : ModFolderModel :=
  { m_resources := mods
    m_resources_index := (mods.map Mod.internal_id).zip (List.range mods.length)
    m_active_parse_tasks := []
    m_requires := []
    m_requiredBy := [] }

/-- The chain: A requires B requires C, by declared dependencies. -/
def chainModel (enabled : Bool) : ModFolderModel :=
  freshModel
    [localMod "a.jar" "a" enabled ["b"],
     localMod "b.jar" "b" enabled ["c"],
     localMod "c.jar" "c" enabled []]

/-- The cycle: A requires B requires A. -/
def cycleModel : ModFolderModel :=
  freshModel
    [localMod "a.jar" "a" false ["b"],
     localMod "b.jar" "b" false ["a"]]

/-- The pair A requires B that both a declared dependency (twice) and a
`REQUIRED` metadata dependency produce; the `OPTIONAL` entry names C. -/
def doubleEdgeModel : ModFolderModel :=
  freshModel
    [{ localMod "a.jar" "a" false ["b", "b"] with
        metadata := some
          { provider := ResourceProvider.MODRINTH, project_id := "PA",
            dependencies :=
              [⟨"PB", DependencyType.REQUIRED⟩, ⟨"PC", DependencyType.OPTIONAL⟩,
               ⟨"PX", DependencyType.REQUIRED⟩] } },
     { localMod "b.jar" "b" false [] with
        metadata := some
          { provider := ResourceProvider.MODRINTH, project_id := "PB", dependencies := [] } },
     { localMod "c.jar" "c" false [] with
        metadata := some
          { provider := ResourceProvider.MODRINTH, project_id := "PC", dependencies := [] } }]

/-! ## Notions for the edges of the builder -/

/-- Some entry of the declared dependencies of `a` is the `mod_id` of `b`, and
`b` is the mod the lookup by `mod_id` resolves that entry to. -/
def DeclaresEdge (st : ModFolderModel) (a b : ModPtr) : Prop :=
  ∃ dep ∈ (st.at a).dependencies,
    dep = (st.at b).mod_id ∧ findById st st.allMods dep = some b

/-- The mod `a` has metadata with an entry of kind `REQUIRED` whose `addonId`
resolves, among the mods with metadata of the provider of `a` and that
`project_id`, to `b`. -/
def MetadataEdge (st : ModFolderModel) (a b : ModPtr) : Prop :=
  match (st.at a).metadata with
  | none => False
  | some md =>
    ∃ dep ∈ md.dependencies,
      dep.type = DependencyType.REQUIRED ∧
      findByProjectID st st.allMods dep.addonId md.provider = some b

/-- Edge exactness of the builder on the collection of `st`: after a rebuild,
`b` is in `m_requires[a.mod_id]` exactly when `a` has a declared or a
`REQUIRED` metadata dependency that resolves to `b`. -/
def EdgeExact (st : ModFolderModel) : Prop :=
  ∀ a ∈ st.allMods, ∀ b ∈ st.allMods,
    (b ∈ (onParseFinished st).m_requires.value (st.at a).mod_id ↔
      (DeclaresEdge st a b ∨ MetadataEdge st a b))

/-- No declared dependency of `a` resolves, and no `REQUIRED` metadata
dependency of `a` has a mod with matching provider and `project_id`. -/
def NothingResolves (st : ModFolderModel) (a : ModPtr) : Prop :=
  (∀ dep ∈ (st.at a).dependencies, findById st st.allMods dep = none) ∧
  (match (st.at a).metadata with
   | none => True
   | some md =>
     ∀ dep ∈ md.dependencies, dep.type = DependencyType.REQUIRED →
       findByProjectID st st.allMods dep.addonId md.provider = none)

/-- After a rebuild `m_requires[a.mod_id]` is empty and `a` is in no list of
`m_requiredBy`. -/
def NoEdgeAfterRebuild (st : ModFolderModel) (a : ModPtr) : Prop :=
  (onParseFinished st).m_requires.value (st.at a).mod_id = [] ∧
  ∀ e ∈ (onParseFinished st).m_requiredBy, a ∉ e.2

/-- No other mod of the collection has the `mod_id` of `a`. -/
def UniqueModId (st : ModFolderModel) (a : ModPtr) : Prop :=
  ∀ a' ∈ st.allMods, (st.at a').mod_id = (st.at a).mod_id → a' = a

instance (st : ModFolderModel) (a b : ModPtr) : Decidable (DeclaresEdge st a b) := by
  unfold DeclaresEdge; infer_instance

instance (st : ModFolderModel) (a b : ModPtr) : Decidable (MetadataEdge st a b) := by
  unfold MetadataEdge; split <;> infer_instance

instance (st : ModFolderModel) : Decidable (EdgeExact st) := by
  unfold EdgeExact; infer_instance

instance (st : ModFolderModel) (a : ModPtr) : Decidable (NothingResolves st a) := by
  unfold NothingResolves
  cases (st.at a).metadata <;> infer_instance

instance (st : ModFolderModel) (a : ModPtr) : Decidable (NoEdgeAfterRebuild st a) := by
  unfold NoEdgeAfterRebuild; infer_instance

instance (st : ModFolderModel) (a : ModPtr) : Decidable (UniqueModId st a) := by
  unfold UniqueModId; infer_instance

/-- Two files of the same mod (both with `mod_id` "a") and a mod B; only the
second file declares the dependency on B. -/
def twoFilesModel : ModFolderModel :=
  freshModel
    [localMod "a-1.0.jar" "a" true [],
     localMod "a-2.0.jar" "a" true ["b"],
     localMod "b.jar" "b" true []]

/-- A requires B, rebuilt; then A is parsed again and no longer declares B
(the mappings are those the first rebuild left). -/
def reparsedModel : ModFolderModel :=
  { onParseFinished (freshModel [localMod "a.jar" "a" true ["b"], localMod "b.jar" "b" true []])
    with m_resources := [localMod "a.jar" "a" true [], localMod "b.jar" "b" true []] }

/-- A mod whose only dependencies are a declared one that no mod has and a
`REQUIRED` metadata one that no mod matches. -/
def danglingModel : ModFolderModel :=
  freshModel
    [{ localMod "a.jar" "a" true ["missing"] with
        metadata := some
          { provider := ResourceProvider.FLAME, project_id := "PA",
            dependencies := [⟨"PB", DependencyType.REQUIRED⟩] } },
     { localMod "b.jar" "b" true ["a"] with
        metadata := some
          { provider := ResourceProvider.MODRINTH, project_id := "PB", dependencies := [] } }]

/-! ## Notions for the closure of `getAffectedMods` -/

/-- The index `getAffectedMods` appends for an affected mod. -/
def toIndex (st : ModFolderModel) (affected : ModPtr) : QModelIndex :=
  ⟨st.m_resources_index.value (st.at affected).internal_id, 0⟩

/-- All mods the loops of one call of `getAffectedMods` visit, in order. -/
def candidates (st : ModFolderModel) (indexedMods : List ModPtr) (action : EnableAction) :
    List ModPtr :=
  indexedMods.flatMap (fun mod => neighbours st action (st.at mod).mod_id)

/-- The mods one call of `getAffectedMods` appends to `affectedList` while it
visits `mods` with the given `seen` set. -/
def affectedPtrs (st : ModFolderModel) (indexedMods : List ModPtr) (shouldBeEnabled : Bool) :
    List QString → List ModPtr → List ModPtr
  | _, [] => []
  | seen, c :: cs =>
    if findById st indexedMods (st.at c).mod_id = none ∧ (st.at c).mod_id ∉ seen then
      if shouldBeEnabled ≠ (st.at c).enabled then
        c :: affectedPtrs st indexedMods shouldBeEnabled ((st.at c).mod_id :: seen) cs
      else affectedPtrs st indexedMods shouldBeEnabled ((st.at c).mod_id :: seen) cs
    else affectedPtrs st indexedMods shouldBeEnabled seen cs

/-- The mods one call of `getAffectedMods` on the selection adds. -/
def stepMods (st : ModFolderModel) (indexedMods : List ModPtr) (action : EnableAction) :
    List ModPtr :=
  affectedPtrs st indexedMods (action == EnableAction.ENABLE) []
    (candidates st indexedMods action)

/-- The edge the action walks: `q` is in `m_requires[p.mod_id]` for `ENABLE`,
in `m_requiredBy[p.mod_id]` for `DISABLE`. -/
def DependsEdge (st : ModFolderModel) (action : EnableAction) (p q : ModPtr) : Prop :=
  q ∈ neighbours st action (st.at p).mod_id

/-- The mod `x` is reachable from a mod of the selection by one or more edges. -/
def Reaches (st : ModFolderModel) (action : EnableAction) (sel : List ModPtr) (x : ModPtr) :
    Prop :=
  ∃ s ∈ sel, Relation.TransGen (DependsEdge st action) s x

/-- The number of mods of the collection whose `mod_id` is not that of a
selected mod. -/
def unselected (st : ModFolderModel) (sel : List ModPtr) : Nat :=
  (st.allMods.filter (fun p => decide ((st.at p).mod_id ∉ modIds st sel))).length

/-- Every mod of the collection has the given enabled state. -/
def AllEnabled (st : ModFolderModel) (enabled : Bool) : Prop :=
  ∀ m ∈ st.m_resources, m.enabled = enabled

instance (st : ModFolderModel) (enabled : Bool) : Decidable (AllEnabled st enabled) := by
  unfold AllEnabled; infer_instance

/-- A requires B requires C with B already enabled, A and C disabled. -/
def satisfiedModel : ModFolderModel :=
  freshModel
    [localMod "a.jar" "a" false ["b"],
     localMod "b.jar" "b" true ["c"],
     localMod "c.jar" "c" false []]

/-! ## Applying the change, and the cascade rule -/

/-- The method `ModFolderModel::setResourceEnabled`. The bulk operation
`ResourceFolderModel::setResourceEnabled` of the base class is defined outside
`ModFolderModel.cpp` and is the parameter `base`: it answers whether the change
was applied, and the model it leaves. `none` means the fuel of
`getAffectedMods` ran out. -/
def setResourceEnabled (st : ModFolderModel)
    (base : ModFolderModel → List QModelIndex → EnableAction → Bool × ModFolderModel)
    (fuel : Nat) (indexes : List QModelIndex) (action : EnableAction) :
    Option (Bool × ModFolderModel) :=
  match getAffectedMods st fuel indexes action with
  | none => none
  | some affected => some (base st (indexes ++ affected) action)

/-- The mods of a list of indexes. -/
def rowsOf (r : List QModelIndex) : List ModPtr := r.map (fun i => i.row)

/-- The cascade rule holds of the selection `sel` with the extra mods `extra`:
every neighbour of a mod of `sel` or `extra` is in `sel` or `extra`, or has the
target state already. -/
def CascadeClosed (st : ModFolderModel) (action : EnableAction) (sel extra : List ModPtr) :
    Prop :=
  ∀ m ∈ sel ++ extra, ∀ n ∈ neighbours st action (st.at m).mod_id,
    n ∈ sel ++ extra ∨ (st.at n).enabled = (action == EnableAction.ENABLE)

/-- Each index of the list is on a direct neighbour of a mod of `sel` or of a
mod that stands earlier in the list. -/
def ForcedChain (st : ModFolderModel) (action : EnableAction) :
    List ModPtr → List QModelIndex → Prop
  | _, [] => True
  | sel, idx :: rest =>
    (∃ m ∈ sel, idx.row ∈ neighbours st action (st.at m).mod_id) ∧
      ForcedChain st action (sel ++ [idx.row]) rest

/-- The mod `m` has metadata of the given provider and project id. -/
def Matches (st : ModFolderModel) (provider : ResourceProvider) (projectId : QVariant)
    (m : ModPtr) : Prop :=
  match (st.at m).metadata with
  | none => False
  | some md => md.provider = provider ∧ md.project_id = projectId

instance (st : ModFolderModel) (action : EnableAction) (sel extra : List ModPtr) :
    Decidable (CascadeClosed st action sel extra) := by
  unfold CascadeClosed; infer_instance

instance (st : ModFolderModel) (provider : ResourceProvider) (projectId : QVariant)
    (m : ModPtr) : Decidable (Matches st provider projectId m) := by
  unfold Matches; split <;> infer_instance

/-- A bulk operation for the examples: it succeeds exactly when every index is
on a row of the model, and then sets the enabled state of those rows. -/
def sampleBase (st : ModFolderModel) (indexes : List QModelIndex) (action : EnableAction) :
    Bool × ModFolderModel :=
  if indexes.all (fun i => decide (i.row < st.m_resources.length)) then
    (true,
     { st with
       m_resources := (List.range st.m_resources.length).map (fun p =>
         if p ∈ rowsOf indexes then
           { st.at p with
             enabled :=
               match action with
               | EnableAction.ENABLE => true
               | EnableAction.DISABLE => false
               | EnableAction.TOGGLE => !(st.at p).enabled }
         else st.at p) })
  else (false, st)

/-- A diamond: A requires B and C, B and C require D; C has the given state,
the others are disabled. -/
def diamondModel (cEnabled : Bool) : ModFolderModel :=
  freshModel
    [localMod "a.jar" "a" false ["b", "c"],
     localMod "b.jar" "b" false ["d"],
     localMod "c.jar" "c" cEnabled ["d"],
     localMod "d.jar" "d" false []]

/-- Two files of mod "a" (both disabled) and a mod B that declares "a": the
lookup by `mod_id` resolves the dependency to the first file. -/
def sharedIdModel : ModFolderModel :=
  freshModel
    [localMod "a-1.0.jar" "a" false [],
     localMod "a-2.0.jar" "a" false [],
     localMod "b.jar" "b" false ["a"]]

/-- A mod with metadata of provider Modrinth. -/
def remoteMod (internalId modId : QString) (deps : List QString) (projectId : QVariant)
    (remoteDeps : List Dependency) : Mod :=
  { localMod internalId modId true deps with
    metadata := some
      { provider := ResourceProvider.MODRINTH, project_id := projectId,
        dependencies := remoteDeps } }

/-- A requires project "PB", which two mods B and C of different `mod_id`
carry; B comes first in the collection. -/
def ambiguousModel : ModFolderModel :=
  freshModel
    [remoteMod "a.jar" "a" [] "PA" [⟨"PB", DependencyType.REQUIRED⟩],
     remoteMod "b.jar" "b" [] "PB" [],
     remoteMod "c.jar" "c" [] "PB" []]

/-- A declares "b" and requires project "PB". Three files have `mod_id` "b":
the first has no metadata, the other two carry project "PB". -/
def shadowedModel : ModFolderModel :=
  freshModel
    [remoteMod "a.jar" "a" ["b"] "PA" [⟨"PB", DependencyType.REQUIRED⟩],
     localMod "b-1.0.jar" "b" true [],
     remoteMod "b-1.1.jar" "b" [] "PB" [],
     remoteMod "b-1.2.jar" "b" [] "PB" []]

/-! ## The association lists -/

theorem value_modify (h : QHash) (k k' : QString) (f : List ModPtr → List ModPtr) :
    (h.modify k f).value k' = if k = k' then f (h.value k') else h.value k' := by
  induction h with
  | nil =>
    by_cases hk : k = k' <;> simp [QHash.modify, QHash.value, hk]
  | cons e rest ih =>
    obtain ⟨a, v⟩ := e
    by_cases ha : a = k
    · subst ha
      by_cases hk : a = k' <;> simp [QHash.modify, QHash.value, hk]
    · by_cases hk : k = k'
      · subst hk
        simp [QHash.modify, QHash.value, ha, ih]
      · by_cases hak : a = k'
        · subst hak
          simp [QHash.modify, QHash.value, ha, hk]
        · simp [QHash.modify, QHash.value, ha, hk, hak, ih]

theorem value_of_not_mem_keys (h : QHash) (k : QString) (hk : k ∉ h.keys) :
    h.value k = [] := by
  induction h with
  | nil => rfl
  | cons e rest ih =>
    obtain ⟨a, v⟩ := e
    simp only [QHash.keys, List.map_cons, List.mem_cons, not_or] at hk
    have ha : ¬ a = k := fun h' => hk.1 h'.symm
    simp only [QHash.value, ha, if_false]
    exact ih (by simpa [QHash.keys] using hk.2)

theorem value_mem (h : QHash) (k : QString) :
    h.value k = [] ∨ (k, h.value k) ∈ h := by
  induction h with
  | nil => left; rfl
  | cons e rest ih =>
    obtain ⟨a, v⟩ := e
    by_cases ha : a = k
    · right; subst ha; simp [QHash.value]
    · rcases ih with h0 | h1
      · left; simp [QHash.value, ha, h0]
      · right; simp only [QHash.value, ha, if_false]; exact List.mem_cons_of_mem _ h1

theorem hashAll_value {P : List ModPtr → Prop} {h : QHash} (hv : QHash.All P h)
    (hnil : P []) (k : QString) : P (h.value k) := by
  rcases value_mem h k with h0 | h1
  · rw [h0]; exact hnil
  · exact hv _ h1

theorem hashAll_modify {P : List ModPtr → Prop} {h : QHash} (hv : QHash.All P h)
    (k : QString) (f : List ModPtr → List ModPtr) (hnil : P [])
    (hf : ∀ l, P l → P (f l)) : QHash.All P (h.modify k f) := by
  induction h with
  | nil =>
    intro e he
    simp only [QHash.modify, List.mem_singleton] at he
    subst he
    exact hf [] hnil
  | cons e rest ih =>
    obtain ⟨a, v⟩ := e
    have hrest : QHash.All P rest := fun e he => hv e (List.mem_cons_of_mem _ he)
    have hhead : P v := hv (a, v) (List.mem_cons_self _ _)
    by_cases ha : a = k
    · intro e he
      simp only [QHash.modify, ha, if_true, List.mem_cons] at he
      rcases he with he | he
      · subst he; exact hf v hhead
      · exact hrest e he
    · intro e he
      simp only [QHash.modify, ha, if_false, List.mem_cons] at he
      rcases he with he | he
      · subst he; exact hhead
      · exact ih hrest e he

theorem validList_nil (st : ModFolderModel) : ValidList st [] := by
  intro p hp; simp at hp

theorem validHash_value {st : ModFolderModel} {h : QHash} (hv : ValidHash st h)
    (k : QString) : ValidList st (h.value k) :=
  hashAll_value hv (validList_nil st) k

theorem validHash_modify {st : ModFolderModel} {h : QHash} (hv : ValidHash st h)
    (k : QString) (f : List ModPtr → List ModPtr)
    (hf : ∀ l, ValidList st l → ValidList st (f l)) : ValidHash st (h.modify k f) :=
  hashAll_modify hv k f (validList_nil st) hf

theorem keys_modify_subset (h : QHash) (k : QString) (f : List ModPtr → List ModPtr) :
    ∀ x, x ∈ h.keys → x ∈ (h.modify k f).keys := by
  induction h with
  | nil => intro x hx; simp [QHash.keys] at hx
  | cons e rest ih =>
    obtain ⟨a, v⟩ := e
    intro x hx
    by_cases ha : a = k
    · simpa [QHash.modify, QHash.keys, ha] using hx
    · simp only [QHash.keys, List.map_cons, List.mem_cons] at hx
      simp only [QHash.modify, ha, if_false, QHash.keys, List.map_cons, List.mem_cons]
      rcases hx with hx | hx
      · left; exact hx
      · right; exact ih x hx

/-! ## `removeDuplicates` -/

theorem removeDuplicatesAux_sublist (st : ModFolderModel) (seen : List QString)
    (l : List ModPtr) : (removeDuplicatesAux st seen l).Sublist l := by
  induction l generalizing seen with
  | nil => simp [removeDuplicatesAux]
  | cons m ms ih =>
    by_cases hm : (st.at m).mod_id ∈ seen
    · simp only [removeDuplicatesAux, hm, if_true]
      exact (ih seen).trans (List.sublist_cons_self m ms)
    · simp only [removeDuplicatesAux, hm, if_false]
      exact (ih _).cons₂ m

theorem mem_modIds_removeDuplicatesAux (st : ModFolderModel) (seen : List QString)
    (l : List ModPtr) (x : QString) :
    x ∈ modIds st (removeDuplicatesAux st seen l) ↔ x ∈ modIds st l ∧ x ∉ seen := by
  induction l generalizing seen with
  | nil => simp [removeDuplicatesAux, modIds]
  | cons m ms ih =>
    by_cases hm : (st.at m).mod_id ∈ seen
    · simp only [removeDuplicatesAux, hm, if_true, ih seen]
      simp only [modIds, List.map_cons, List.mem_cons]
      constructor
      · rintro ⟨h1, h2⟩; exact ⟨Or.inr h1, h2⟩
      · rintro ⟨h1 | h1, h2⟩
        · exact absurd (h1 ▸ hm) h2
        · exact ⟨h1, h2⟩
    · simp only [removeDuplicatesAux, hm, if_false]
      have ih' := ih ((st.at m).mod_id :: seen)
      simp only [modIds, List.map_cons, List.mem_cons] at ih' ⊢
      rw [ih']
      constructor
      · rintro (h1 | ⟨h1, h2⟩)
        · exact ⟨Or.inl h1, h1 ▸ hm⟩
        · exact ⟨Or.inr h1, fun h3 => h2 (Or.inr h3)⟩
      · rintro ⟨h1 | h1, h2⟩
        · exact Or.inl h1
        · by_cases hx : x = (st.at m).mod_id
          · exact Or.inl hx
          · right; refine ⟨h1, ?_⟩
            rintro (h3 | h3)
            · exact hx h3
            · exact h2 h3

theorem nodup_modIds_removeDuplicatesAux (st : ModFolderModel) (seen : List QString)
    (l : List ModPtr) : (modIds st (removeDuplicatesAux st seen l)).Nodup := by
  induction l generalizing seen with
  | nil => simp [removeDuplicatesAux, modIds]
  | cons m ms ih =>
    by_cases hm : (st.at m).mod_id ∈ seen
    · simp only [removeDuplicatesAux, hm, if_true]
      exact ih seen
    · simp only [removeDuplicatesAux, hm, if_false]
      have h1 := ih ((st.at m).mod_id :: seen)
      have h2 := mem_modIds_removeDuplicatesAux st ((st.at m).mod_id :: seen) ms
        (st.at m).mod_id
      simp only [modIds, List.map_cons, List.nodup_cons] at h1 h2 ⊢
      refine ⟨?_, h1⟩
      intro h3
      exact (h2.mp h3).2 (List.mem_cons_self _ _)

theorem removeDuplicatesAux_idem (st : ModFolderModel) (seen : List QString)
    (l : List ModPtr) :
    removeDuplicatesAux st seen (removeDuplicatesAux st seen l)
      = removeDuplicatesAux st seen l := by
  induction l generalizing seen with
  | nil => simp [removeDuplicatesAux]
  | cons m ms ih =>
    by_cases hm : (st.at m).mod_id ∈ seen
    · simp only [removeDuplicatesAux, hm, if_true]
      exact ih seen
    · simp only [removeDuplicatesAux, hm, if_false]
      rw [ih]

theorem removeDuplicates_nil (st : ModFolderModel) : removeDuplicates st [] = [] := rfl

theorem removeDuplicates_idem (st : ModFolderModel) (l : List ModPtr) :
    removeDuplicates st (removeDuplicates st l) = removeDuplicates st l :=
  removeDuplicatesAux_idem st [] l

theorem mem_modIds_removeDuplicates (st : ModFolderModel) (l : List ModPtr) (x : QString) :
    x ∈ modIds st (removeDuplicates st l) ↔ x ∈ modIds st l := by
  simp [removeDuplicates, mem_modIds_removeDuplicatesAux]

theorem removeDuplicates_subset (st : ModFolderModel) (l : List ModPtr) :
    ∀ p ∈ removeDuplicates st l, p ∈ l :=
  fun _ hp => (removeDuplicatesAux_sublist st [] l).subset hp

theorem validList_removeDuplicates {st : ModFolderModel} {l : List ModPtr}
    (hl : ValidList st l) : ValidList st (removeDuplicates st l) :=
  fun p hp => hl p (removeDuplicates_subset st l p hp)

theorem value_dedupFold (st : ModFolderModel) (ks : List QString) (h : QHash) (k : QString) :
    (ks.foldl (fun acc key => acc.modify key (removeDuplicates st)) h).value k
      = if k ∈ ks then removeDuplicates st (h.value k) else h.value k := by
  induction ks generalizing h with
  | nil => simp
  | cons a as ih =>
    simp only [List.foldl_cons, ih, value_modify, List.mem_cons]
    by_cases hak : a = k
    · subst hak
      by_cases hmem : a ∈ as <;> simp [hmem, removeDuplicates_idem]
    · have hka : ¬ k = a := fun h' => hak h'.symm
      simp [hak, hka]

theorem value_dedupLoop (st : ModFolderModel) (h : QHash) (k : QString) :
    (dedupLoop st h).value k = removeDuplicates st (h.value k) := by
  unfold dedupLoop
  rw [value_dedupFold]
  by_cases hk : k ∈ h.keys
  · simp [hk]
  · simp [hk, value_of_not_mem_keys h k hk, removeDuplicates_nil]

theorem all_dedupFold (st : ModFolderModel) (P : List ModPtr → Prop) (hnil : P [])
    (hsub : ∀ l, P l → P (removeDuplicates st l)) (ks : List QString) (h : QHash)
    (hv : QHash.All P h) :
    QHash.All P (ks.foldl (fun acc key => acc.modify key (removeDuplicates st)) h) := by
  induction ks generalizing h with
  | nil => simpa using hv
  | cons a as ih =>
    simp only [List.foldl_cons]
    exact ih _ (hashAll_modify hv a _ hnil hsub)

theorem hashAll_dedupLoop {st : ModFolderModel} {P : List ModPtr → Prop} {h : QHash}
    (hv : QHash.All P h) (hnil : P []) (hsub : ∀ l, P l → P (removeDuplicates st l)) :
    QHash.All P (dedupLoop st h) :=
  all_dedupFold st P hnil hsub h.keys h hv

theorem validHash_dedupLoop {st : ModFolderModel} {h : QHash} (hv : ValidHash st h) :
    ValidHash st (dedupLoop st h) :=
  hashAll_dedupLoop hv (validList_nil st) (fun _ hl => validList_removeDuplicates hl)

/-! ## The first loop of `onParseFinished` -/

theorem declaredLoop_eq (st : ModFolderModel) (mods : List ModPtr) (mod : ModPtr)
    (maps : QHash × QHash) :
    declaredLoop st mods mod maps
      = (declaredDeps st mods mod).foldl (fun acc d => addEdge st acc mod d) maps := by
  unfold declaredLoop declaredDeps
  generalize (st.at mod).dependencies = deps
  induction deps generalizing maps with
  | nil => rfl
  | cons dep rest ih =>
    simp only [List.foldl_cons, List.filterMap_cons]
    cases hfind : findById st mods dep with
    | none => simpa using ih maps
    | some d => simpa using ih (addEdge st maps mod d)

theorem metadataLoop_eq (st : ModFolderModel) (mods : List ModPtr) (mod : ModPtr)
    (maps : QHash × QHash) :
    metadataLoop st mods mod maps
      = (metadataDeps st mods mod).foldl (fun acc d => addEdge st acc mod d) maps := by
  unfold metadataLoop metadataDeps
  cases (st.at mod).metadata with
  | none => rfl
  | some md =>
    simp only
    generalize md.dependencies = deps
    induction deps generalizing maps with
    | nil => rfl
    | cons dep rest ih =>
      simp only [List.foldl_cons, List.filterMap_cons]
      by_cases hreq : dep.type = DependencyType.REQUIRED
      · simp only [hreq, if_true]
        cases hfind : findByProjectID st mods dep.addonId md.provider with
        | none => simpa using ih maps
        | some d => simpa using ih (addEdge st maps mod d)
      · simp only [hreq, if_false]
        simpa using ih maps

theorem buildFold_eq (st : ModFolderModel) (mods ms : List ModPtr) (maps : QHash × QHash) :
    ms.foldl (fun acc mod => metadataLoop st mods mod (declaredLoop st mods mod acc)) maps
      = (edgeList st mods ms).foldl (fun acc e => addEdge st acc e.1 e.2) maps := by
  induction ms generalizing maps with
  | nil => rfl
  | cons a rest ih =>
    simp only [List.foldl_cons, edgeList, List.flatMap_cons, List.foldl_append]
    rw [ih, metadataLoop_eq, declaredLoop_eq, ← List.foldl_append]
    simp only [edgeList, resolvedDeps, List.foldl_map]

theorem buildLoop_eq (st : ModFolderModel) (mods : List ModPtr) (maps : QHash × QHash) :
    buildLoop st mods maps
      = (edgeList st mods mods).foldl (fun acc e => addEdge st acc e.1 e.2) maps :=
  buildFold_eq st mods mods maps

theorem value_edgeFold_fst (st : ModFolderModel) (es : List (ModPtr × ModPtr))
    (maps : QHash × QHash) (k : QString) :
    (es.foldl (fun acc e => addEdge st acc e.1 e.2) maps).1.value k
      = maps.1.value k
        ++ (es.filter (fun e => (st.at e.1).mod_id = k)).map Prod.snd := by
  induction es generalizing maps with
  | nil => simp
  | cons e rest ih =>
    rw [List.foldl_cons, ih]
    simp only [addEdge, value_modify, List.filter_cons]
    by_cases he : (st.at e.1).mod_id = k <;> simp [he]

theorem value_edgeFold_snd (st : ModFolderModel) (es : List (ModPtr × ModPtr))
    (maps : QHash × QHash) (k : QString) :
    (es.foldl (fun acc e => addEdge st acc e.1 e.2) maps).2.value k
      = maps.2.value k
        ++ (es.filter (fun e => (st.at e.2).mod_id = k)).map Prod.fst := by
  induction es generalizing maps with
  | nil => simp
  | cons e rest ih =>
    rw [List.foldl_cons, ih]
    simp only [addEdge, value_modify, List.filter_cons]
    by_cases he : (st.at e.2).mod_id = k <;> simp [he]

theorem all_edgeFold_snd (st : ModFolderModel) (P : List ModPtr → Prop) (hnil : P [])
    (es : List (ModPtr × ModPtr)) (maps : QHash × QHash)
    (hes : ∀ e ∈ es, ∀ l, P l → P (l ++ [e.1])) (h2 : QHash.All P maps.2) :
    QHash.All P (es.foldl (fun acc e => addEdge st acc e.1 e.2) maps).2 := by
  induction es generalizing maps with
  | nil => exact h2
  | cons e rest ih =>
    simp only [List.foldl_cons]
    apply ih
    · exact fun e' he' => hes e' (List.mem_cons_of_mem _ he')
    · exact hashAll_modify h2 _ _ hnil (hes e (List.mem_cons_self _ _))

theorem all_edgeFold_fst (st : ModFolderModel) (P : List ModPtr → Prop) (hnil : P [])
    (es : List (ModPtr × ModPtr)) (maps : QHash × QHash)
    (hes : ∀ e ∈ es, ∀ l, P l → P (l ++ [e.2])) (h1 : QHash.All P maps.1) :
    QHash.All P (es.foldl (fun acc e => addEdge st acc e.1 e.2) maps).1 := by
  induction es generalizing maps with
  | nil => exact h1
  | cons e rest ih =>
    simp only [List.foldl_cons]
    apply ih
    · exact fun e' he' => hes e' (List.mem_cons_of_mem _ he')
    · exact hashAll_modify h1 _ _ hnil (hes e (List.mem_cons_self _ _))

theorem validList_snoc {st : ModFolderModel} {l : List ModPtr} {p : ModPtr}
    (hl : ValidList st l) (hp : p < st.m_resources.length) : ValidList st (l ++ [p]) := by
  intro q hq
  rcases List.mem_append.mp hq with hq | hq
  · exact hl q hq
  · rw [List.mem_singleton.mp hq]; exact hp

theorem validHash_edgeFold (st : ModFolderModel) (es : List (ModPtr × ModPtr))
    (maps : QHash × QHash) (hes : ∀ e ∈ es, e.1 < st.m_resources.length ∧
      e.2 < st.m_resources.length)
    (h1 : ValidHash st maps.1) (h2 : ValidHash st maps.2) :
    ValidHash st (es.foldl (fun acc e => addEdge st acc e.1 e.2) maps).1 ∧
    ValidHash st (es.foldl (fun acc e => addEdge st acc e.1 e.2) maps).2 :=
  ⟨all_edgeFold_fst st _ (validList_nil st) es maps
      (fun e he _ hl => validList_snoc hl (hes e he).2) h1,
   all_edgeFold_snd st _ (validList_nil st) es maps
      (fun e he _ hl => validList_snoc hl (hes e he).1) h2⟩

theorem findById_mem {st : ModFolderModel} {mods : List ModPtr} {modId : QString}
    {d : ModPtr} (h : findById st mods modId = some d) :
    d ∈ mods ∧ (st.at d).mod_id = modId := by
  unfold findById at h
  refine ⟨List.mem_of_find?_eq_some h, ?_⟩
  simpa using List.find?_some h

theorem findByProjectID_mem {st : ModFolderModel} {mods : List ModPtr} {modId : QVariant}
    {provider : ResourceProvider} {d : ModPtr}
    (h : findByProjectID st mods modId provider = some d) : d ∈ mods :=
  List.mem_of_find?_eq_some h

theorem resolvedDeps_mem {st : ModFolderModel} {mods : List ModPtr} {a d : ModPtr}
    (h : d ∈ resolvedDeps st mods a) : d ∈ mods := by
  unfold resolvedDeps declaredDeps metadataDeps at h
  rcases List.mem_append.mp h with h | h
  · obtain ⟨dep, -, hdep⟩ := List.mem_filterMap.mp h
    exact (findById_mem hdep).1
  · cases hmd : (st.at a).metadata with
    | none => simp [hmd] at h
    | some md =>
      simp only [hmd] at h
      obtain ⟨dep, -, hdep⟩ := List.mem_filterMap.mp h
      by_cases hreq : dep.type = DependencyType.REQUIRED
      · simp only [hreq, if_true] at hdep
        exact findByProjectID_mem hdep
      · simp [hreq] at hdep

theorem mem_edgeList {st : ModFolderModel} {mods ms : List ModPtr} {e : ModPtr × ModPtr} :
    e ∈ edgeList st mods ms ↔ e.1 ∈ ms ∧ e.2 ∈ resolvedDeps st mods e.1 := by
  obtain ⟨a, d⟩ := e
  simp only [edgeList, List.mem_flatMap, List.mem_map, Prod.mk.injEq]
  constructor
  · rintro ⟨a', ha', d', hd', rfl, rfl⟩
    exact ⟨ha', hd'⟩
  · rintro ⟨ha, hd⟩
    exact ⟨a, ha, d, hd, rfl, rfl⟩

theorem mem_allMods {st : ModFolderModel} {p : ModPtr} :
    p ∈ st.allMods ↔ p < st.m_resources.length := by
  simp [ModFolderModel.allMods]

/-! ## What `onParseFinished` leaves in the model -/

theorem onParseFinished_requires_value (st : ModFolderModel)
    (hp : st.hasPendingParseTasks = false) (k : QString) :
    (onParseFinished st).m_requires.value k
      = removeDuplicates st (st.m_requires.value k
          ++ ((edgeList st st.allMods st.allMods).filter
                (fun e => (st.at e.1).mod_id = k)).map Prod.snd) := by
  simp only [onParseFinished, hp, Bool.false_eq_true, if_false, value_dedupLoop, buildLoop_eq,
    value_edgeFold_fst]

theorem onParseFinished_requiredBy_value (st : ModFolderModel)
    (hp : st.hasPendingParseTasks = false) (k : QString) :
    (onParseFinished st).m_requiredBy.value k
      = removeDuplicates st (st.m_requiredBy.value k
          ++ ((edgeList st st.allMods st.allMods).filter
                (fun e => (st.at e.2).mod_id = k)).map Prod.fst) := by
  simp only [onParseFinished, hp, Bool.false_eq_true, if_false, value_dedupLoop, buildLoop_eq,
    value_edgeFold_snd]

theorem onParseFinished_length (st : ModFolderModel) :
    (onParseFinished st).m_resources.length = st.m_resources.length := by
  unfold onParseFinished
  split <;> simp

theorem onParseFinished_allMods (st : ModFolderModel) :
    (onParseFinished st).allMods = st.allMods := by
  simp [ModFolderModel.allMods, onParseFinished_length]

theorem onParseFinished_index (st : ModFolderModel) :
    (onParseFinished st).m_resources_index = st.m_resources_index := by
  unfold onParseFinished
  split <;> rfl

theorem at_map (st st' : ModFolderModel) (f : Mod → Mod) (p : ModPtr)
    (hres : st'.m_resources = st.m_resources.map f) (hp : p < st.m_resources.length) :
    st'.at p = f (st.at p) := by
  simp [ModFolderModel.at, hres, List.getD, List.getElem?_map, List.getElem?_eq_getElem hp]

theorem at_of_not_lt (st : ModFolderModel) (p : ModPtr)
    (hp : ¬ p < st.m_resources.length) : st.at p = default := by
  simp [ModFolderModel.at, List.getD, List.getElem?_eq_none (Nat.le_of_not_lt hp)]

/-- The fields of a mod that `onParseFinished` does not write. -/
theorem onParseFinished_at (st : ModFolderModel) (p : ModPtr) :
    ((onParseFinished st).at p).mod_id = (st.at p).mod_id ∧
    ((onParseFinished st).at p).internal_id = (st.at p).internal_id ∧
    ((onParseFinished st).at p).enabled = (st.at p).enabled ∧
    ((onParseFinished st).at p).dependencies = (st.at p).dependencies ∧
    ((onParseFinished st).at p).metadata = (st.at p).metadata := by
  unfold onParseFinished
  split
  · simp
  · by_cases hp : p < st.m_resources.length
    · simp only []
      rw [at_map st _ _ p rfl hp]
      simp [setCounts]
    · rw [at_of_not_lt st p hp, at_of_not_lt _ p (by simpa using hp)]
      simp

theorem onParseFinished_mod_id (st : ModFolderModel) (p : ModPtr) :
    ((onParseFinished st).at p).mod_id = (st.at p).mod_id := (onParseFinished_at st p).1

theorem onParseFinished_enabled (st : ModFolderModel) (p : ModPtr) :
    ((onParseFinished st).at p).enabled = (st.at p).enabled := (onParseFinished_at st p).2.2.1

theorem onParseFinished_modIds (st : ModFolderModel) (l : List ModPtr) :
    modIds (onParseFinished st) l = modIds st l := by
  simp [modIds, onParseFinished_mod_id]

theorem edgeList_valid (st : ModFolderModel) :
    ∀ e ∈ edgeList st st.allMods st.allMods,
      e.1 < st.m_resources.length ∧ e.2 < st.m_resources.length := by
  intro e he
  rw [mem_edgeList] at he
  exact ⟨mem_allMods.mp he.1, mem_allMods.mp (resolvedDeps_mem he.2)⟩

theorem validMappings_onParseFinished (st : ModFolderModel) (hv : ValidMappings st) :
    ValidMappings (onParseFinished st) := by
  have hlen := onParseFinished_length st
  have key : ValidHash st (onParseFinished st).m_requires ∧
      ValidHash st (onParseFinished st).m_requiredBy := by
    unfold onParseFinished
    split
    · exact hv
    · simp only [buildLoop_eq]
      have h := validHash_edgeFold st _ (st.m_requires, st.m_requiredBy) (edgeList_valid st)
        hv.1 hv.2
      exact ⟨validHash_dedupLoop h.1, validHash_dedupLoop h.2⟩
  constructor
  · intro e he p hp; rw [hlen]; exact key.1 e he p hp
  · intro e he p hp; rw [hlen]; exact key.2 e he p hp

theorem wellIndexed_onParseFinished (st : ModFolderModel) (hw : WellIndexed st) :
    WellIndexed (onParseFinished st) := by
  intro p hp
  rw [onParseFinished_allMods] at hp
  rw [onParseFinished_index, (onParseFinished_at st p).2.1]
  exact hw p hp

theorem validMappings_of_empty (st : ModFolderModel) (he : MappingsEmpty st) :
    ValidMappings st := by
  constructor
  · intro e h; rw [he.1] at h; simp at h
  · intro e h; rw [he.2] at h; simp at h

/-! ## Symmetry and deduplication of the rebuilt mappings -/

theorem mem_modIds_append (st : ModFolderModel) (l₁ l₂ : List ModPtr) (x : QString) :
    x ∈ modIds st (l₁ ++ l₂) ↔ x ∈ modIds st l₁ ∨ x ∈ modIds st l₂ := by
  simp [modIds]

theorem memById_requires_rebuild (st : ModFolderModel) (hp : st.hasPendingParseTasks = false)
    (k x : QString) :
    x ∈ modIds st ((onParseFinished st).m_requires.value k) ↔
      x ∈ modIds st (st.m_requires.value k) ∨
      ∃ e ∈ edgeList st st.allMods st.allMods,
        (st.at e.1).mod_id = k ∧ (st.at e.2).mod_id = x := by
  rw [onParseFinished_requires_value st hp, mem_modIds_removeDuplicates, mem_modIds_append]
  apply or_congr Iff.rfl
  simp only [modIds, List.mem_map, List.mem_filter, decide_eq_true_eq]
  constructor
  · rintro ⟨d, ⟨e, ⟨he, hk⟩, rfl⟩, hx⟩
    exact ⟨e, he, hk, hx⟩
  · rintro ⟨e, he, hk, hx⟩
    exact ⟨e.2, ⟨e, ⟨he, hk⟩, rfl⟩, hx⟩

theorem memById_requiredBy_rebuild (st : ModFolderModel)
    (hp : st.hasPendingParseTasks = false) (k x : QString) :
    x ∈ modIds st ((onParseFinished st).m_requiredBy.value k) ↔
      x ∈ modIds st (st.m_requiredBy.value k) ∨
      ∃ e ∈ edgeList st st.allMods st.allMods,
        (st.at e.2).mod_id = k ∧ (st.at e.1).mod_id = x := by
  rw [onParseFinished_requiredBy_value st hp, mem_modIds_removeDuplicates, mem_modIds_append]
  apply or_congr Iff.rfl
  simp only [modIds, List.mem_map, List.mem_filter, decide_eq_true_eq]
  constructor
  · rintro ⟨d, ⟨e, ⟨he, hk⟩, rfl⟩, hx⟩
    exact ⟨e, he, hk, hx⟩
  · rintro ⟨e, he, hk, hx⟩
    exact ⟨e.1, ⟨e, ⟨he, hk⟩, rfl⟩, hx⟩

theorem symmetric_of_empty (st : ModFolderModel) (he : MappingsEmpty st) : Symmetric st := by
  intro a _ b _
  simp [MemById, he.1, he.2, QHash.value, modIds]

/-- C4. Symmetry of the adjacency mappings: when `onParseFinished` runs (no
parse task pending) on mappings that were empty or already symmetric, then
afterwards, for all mods A and B of the collection, B is a member (by `mod_id`)
of `m_requires[A.mod_id]` if and only if A is a member (by `mod_id`) of
`m_requiredBy[B.mod_id]`. -/
theorem C4_rebuild_symmetric (st : ModFolderModel)
    (hp : st.hasPendingParseTasks = false)
    (hprior : MappingsEmpty st ∨ Symmetric st) :
    Symmetric (onParseFinished st) := by
  have hsym : Symmetric st := hprior.elim (symmetric_of_empty st) id
  intro a ha b hb
  rw [onParseFinished_allMods] at ha hb
  simp only [MemById, onParseFinished_modIds, onParseFinished_mod_id]
  rw [memById_requires_rebuild st hp, memById_requiredBy_rebuild st hp]
  apply or_congr (hsym a ha b hb)
  constructor
  · rintro ⟨e, he, h1, h2⟩; exact ⟨e, he, h2, h1⟩
  · rintro ⟨e, he, h1, h2⟩; exact ⟨e, he, h2, h1⟩

/-- C4 at the chain A requires B requires C, rebuilt from empty mappings. -/
theorem C4_rebuild_symmetric_witness :
    (chainModel false).hasPendingParseTasks = false ∧
    (MappingsEmpty (chainModel false) ∨ Symmetric (chainModel false)) ∧
    Symmetric (onParseFinished (chainModel false)) :=
  ⟨by decide, by decide,
   C4_rebuild_symmetric (chainModel false) (by decide) (by decide)⟩

/-- C5. Dedup invariant: whatever the mappings held before, after
`onParseFinished` has run (no parse task pending) no `mod_id` occurs more than
once in any list `m_requires[k]` or `m_requiredBy[k]`. -/
theorem C5_rebuild_nodup (st : ModFolderModel)
    (hp : st.hasPendingParseTasks = false) (k : QString) :
    (modIds (onParseFinished st) ((onParseFinished st).m_requires.value k)).Nodup ∧
    (modIds (onParseFinished st) ((onParseFinished st).m_requiredBy.value k)).Nodup := by
  rw [onParseFinished_modIds, onParseFinished_modIds, onParseFinished_requires_value st hp,
    onParseFinished_requiredBy_value st hp]
  exact ⟨nodup_modIds_removeDuplicatesAux st [] _, nodup_modIds_removeDuplicatesAux st [] _⟩

/-- C5 at a collection where A requires B is produced twice by declared
dependencies and once more by a `REQUIRED` metadata dependency. -/
theorem C5_rebuild_nodup_witness :
    doubleEdgeModel.hasPendingParseTasks = false ∧
    (edgeList doubleEdgeModel doubleEdgeModel.allMods doubleEdgeModel.allMods
      = [(0, 1), (0, 1), (0, 1)]) ∧
    (modIds (onParseFinished doubleEdgeModel)
      ((onParseFinished doubleEdgeModel).m_requires.value "a")).Nodup ∧
    (modIds (onParseFinished doubleEdgeModel)
      ((onParseFinished doubleEdgeModel).m_requiredBy.value "a")).Nodup :=
  ⟨by decide, by decide, C5_rebuild_nodup doubleEdgeModel (by decide) "a"⟩

/-! ## The edges the builder records -/

theorem at_eq_getElem (st : ModFolderModel) (p : ModPtr) (hp : p < st.m_resources.length) :
    st.at p = st.m_resources[p] := by
  simp [ModFolderModel.at, List.getD, List.getElem?_eq_getElem hp]

theorem distinctModIds_inj {st : ModFolderModel} (hd : DistinctModIds st) {p q : ModPtr}
    (hp : p < st.m_resources.length) (hq : q < st.m_resources.length)
    (h : (st.at p).mod_id = (st.at q).mod_id) : p = q := by
  rw [at_eq_getElem st p hp, at_eq_getElem st q hq] at h
  have hp' : p < (st.m_resources.map Mod.mod_id).length := by simpa using hp
  have hq' : q < (st.m_resources.map Mod.mod_id).length := by simpa using hq
  have h' : (st.m_resources.map Mod.mod_id)[p] = (st.m_resources.map Mod.mod_id)[q] := by
    simpa using h
  exact (List.Nodup.getElem_inj_iff hd).mp h'

theorem mem_removeDuplicates_iff (st : ModFolderModel) (l : List ModPtr)
    (hinj : ∀ p ∈ l, ∀ q ∈ l, (st.at p).mod_id = (st.at q).mod_id → p = q) (p : ModPtr) :
    p ∈ removeDuplicates st l ↔ p ∈ l := by
  constructor
  · exact removeDuplicates_subset st l p
  · intro hp
    have h1 : (st.at p).mod_id ∈ modIds st (removeDuplicates st l) := by
      rw [mem_modIds_removeDuplicates]
      exact List.mem_map.mpr ⟨p, hp, rfl⟩
    obtain ⟨q, hq, hqp⟩ := List.mem_map.mp h1
    have hql : q ∈ l := removeDuplicates_subset st l q hq
    have : q = p := hinj q hql p hp hqp
    rw [← this]; exact hq

theorem mem_resolvedDeps_iff (st : ModFolderModel) (a b : ModPtr) :
    b ∈ resolvedDeps st st.allMods a ↔ (DeclaresEdge st a b ∨ MetadataEdge st a b) := by
  unfold resolvedDeps
  rw [List.mem_append]
  apply or_congr
  · unfold declaredDeps DeclaresEdge
    rw [List.mem_filterMap]
    constructor
    · rintro ⟨dep, hdep, hfind⟩
      exact ⟨dep, hdep, (findById_mem hfind).2.symm, hfind⟩
    · rintro ⟨dep, hdep, -, hfind⟩
      exact ⟨dep, hdep, hfind⟩
  · unfold metadataDeps MetadataEdge
    cases (st.at a).metadata with
    | none => simp
    | some md =>
      simp only [List.mem_filterMap]
      constructor
      · rintro ⟨dep, hdep, hfind⟩
        by_cases hreq : dep.type = DependencyType.REQUIRED
        · simp only [hreq, if_true] at hfind
          exact ⟨dep, hdep, hreq, hfind⟩
        · simp [hreq] at hfind
      · rintro ⟨dep, hdep, hreq, hfind⟩
        exact ⟨dep, hdep, by simp only [hreq, if_true]; exact hfind⟩

theorem resolvedDeps_eq_nil_of_nothingResolves (st : ModFolderModel) (a : ModPtr)
    (h : NothingResolves st a) : resolvedDeps st st.allMods a = [] := by
  apply List.eq_nil_iff_forall_not_mem.mpr
  intro b hb
  rw [mem_resolvedDeps_iff] at hb
  rcases hb with ⟨dep, hdep, -, hfind⟩ | hb
  · rw [h.1 dep hdep] at hfind; simp at hfind
  · have h2 := h.2
    unfold MetadataEdge at hb
    cases hmd : (st.at a).metadata with
    | none => simp [hmd] at hb
    | some md =>
      simp only [hmd] at hb h2
      obtain ⟨dep, hdep, hreq, hfind⟩ := hb
      rw [h2 dep hdep hreq] at hfind; simp at hfind

/-- C7, the code at the failing input. A requires B was recorded by a first
rebuild; A is parsed again and declares nothing. The rebuild of that
collection still holds B in `m_requires["a"]` and A in `m_requiredBy["b"]`,
where a rebuild of the same collection from empty mappings holds neither: the
mappings are not discarded, the new edges are appended to the old lists. -/
theorem C7_stale_edge_survives :
    reparsedModel.hasPendingParseTasks = false ∧
    reparsedModel.m_requires.value "a" = [1] ∧
    edgeList reparsedModel reparsedModel.allMods reparsedModel.allMods = [] ∧
    (onParseFinished reparsedModel).m_requires.value "a" = [1] ∧
    (onParseFinished reparsedModel).m_requiredBy.value "b" = [0] ∧
    (onParseFinished (freshModel reparsedModel.m_resources)).m_requires.value "a" = [] ∧
    (onParseFinished (freshModel reparsedModel.m_resources)).m_requiredBy.value "b" = [] := by
  decide

/-- C8 as stated fails where two mods share a `mod_id`: of two files of mod
"a" only the second declares B, and after the rebuild B is in
`m_requires[A.mod_id]` for the first file A too, which has no dependency. -/
theorem C8_counterexample :
    MappingsEmpty twoFilesModel ∧ twoFilesModel.hasPendingParseTasks = false ∧
    (twoFilesModel.at 0).dependencies = [] ∧ (twoFilesModel.at 0).metadata = none ∧
    2 ∈ (onParseFinished twoFilesModel).m_requires.value (twoFilesModel.at 0).mod_id ∧
    ¬ EdgeExact twoFilesModel := by
  decide

/-- With pairwise distinct `mod_id`s and empty mappings, the rebuilt
`m_requires[a.mod_id]` holds exactly the mods the dependencies of `a` resolve
to. -/
theorem edgeExact_of_distinct (st : ModFolderModel)
    (hd : DistinctModIds st) (he : MappingsEmpty st)
    (hp : st.hasPendingParseTasks = false) :
    EdgeExact st := by
  intro a ha b _
  rw [onParseFinished_requires_value st hp, he.1]
  simp only [QHash.value, List.nil_append]
  have hvalid : ∀ p ∈ ((edgeList st st.allMods st.allMods).filter
      (fun e => (st.at e.1).mod_id = (st.at a).mod_id)).map Prod.snd,
      p < st.m_resources.length := by
    intro p hp'
    obtain ⟨e, he', rfl⟩ := List.mem_map.mp hp'
    exact (edgeList_valid st e (List.mem_filter.mp he').1).2
  rw [mem_removeDuplicates_iff st _
    (fun p hp' q hq' h => distinctModIds_inj hd (hvalid p hp') (hvalid q hq') h)]
  rw [← mem_resolvedDeps_iff]
  simp only [List.mem_map, List.mem_filter, decide_eq_true_eq]
  constructor
  · rintro ⟨e, ⟨he', hk⟩, rfl⟩
    have hvalid' := edgeList_valid st e he'
    have : e.1 = a := distinctModIds_inj hd hvalid'.1 (mem_allMods.mp ha) hk
    rw [mem_edgeList] at he'
    rw [← this]; exact he'.2
  · intro hb
    exact ⟨(a, b), ⟨mem_edgeList.mpr ⟨ha, hb⟩, rfl⟩, rfl⟩

/-- C8, amended. Edge exactness of the builder for a collection with pairwise
distinct `mod_id`s: after `onParseFinished` has run on empty mappings, a mod B
is a member of `m_requires[A.mod_id]` if and only if some declared dependency
of A is the `mod_id` of B (and resolves to B), or A has metadata with a
`REQUIRED` entry whose `addonId` resolves to B among the mods with metadata of
the provider of A. Entries of another kind and unresolved entries give no
edge. -/
theorem C8_edge_exact (st : ModFolderModel)
    (hd : DistinctModIds st) (he : MappingsEmpty st)
    (hp : st.hasPendingParseTasks = false) :
    EdgeExact st :=
  edgeExact_of_distinct st hd he hp

/-- C8 (amended) at a collection where A has a declared dependency and a
`REQUIRED` metadata dependency on B, an `OPTIONAL` one on C and a `REQUIRED`
one that no mod matches. -/
theorem C8_edge_exact_witness :
    DistinctModIds doubleEdgeModel ∧ MappingsEmpty doubleEdgeModel ∧
    doubleEdgeModel.hasPendingParseTasks = false ∧
    (onParseFinished doubleEdgeModel).m_requires.value "a" = [1] ∧
    EdgeExact doubleEdgeModel :=
  ⟨by decide, by decide, by decide, by decide,
   C8_edge_exact doubleEdgeModel (by decide) (by decide) (by decide)⟩

/-- C9 as stated fails where another mod shares the `mod_id` of A: the first
file of mod "a" has no dependency at all, and after the rebuild
`m_requires[A.mod_id]` holds B, recorded for the second file. -/
theorem C9_counterexample :
    MappingsEmpty twoFilesModel ∧ twoFilesModel.hasPendingParseTasks = false ∧
    NothingResolves twoFilesModel 0 ∧
    (onParseFinished twoFilesModel).m_requires.value (twoFilesModel.at 0).mod_id = [2] ∧
    ¬ NoEdgeAfterRebuild twoFilesModel 0 := by
  decide

/-- C9, amended. Dangling dependencies: let A be a mod of the collection whose
`mod_id` no other mod shares, none of whose declared dependencies resolves and
none of whose `REQUIRED` metadata dependencies has a mod with matching
provider and `project_id`. Then `onParseFinished` on empty mappings (a total
function: there is no error path) leaves `m_requires[A.mod_id]` empty and A in
no list of `m_requiredBy`. -/
theorem C9_dangling_no_edge (st : ModFolderModel) (a : ModPtr)
    (hu : UniqueModId st a)
    (he : MappingsEmpty st) (hp : st.hasPendingParseTasks = false)
    (hn : NothingResolves st a) :
    NoEdgeAfterRebuild st a := by
  have hnil := resolvedDeps_eq_nil_of_nothingResolves st a hn
  have hedge : ∀ e ∈ edgeList st st.allMods st.allMods, e.1 ≠ a := by
    intro e he' h1
    rw [mem_edgeList, h1, hnil] at he'
    simp at he'
  constructor
  · rw [onParseFinished_requires_value st hp, he.1]
    simp only [QHash.value, List.nil_append]
    have : (edgeList st st.allMods st.allMods).filter
        (fun e => (st.at e.1).mod_id = (st.at a).mod_id) = [] := by
      apply List.filter_eq_nil_iff.mpr
      intro e he' hk
      have h1 : e.1 = a := hu e.1 (mem_allMods.mpr (edgeList_valid st e he').1)
        (by simpa using hk)
      exact hedge e he' h1
    rw [this]; rfl
  · have hbuilt : QHash.All (fun l => a ∉ l)
        ((edgeList st st.allMods st.allMods).foldl (fun acc e => addEdge st acc e.1 e.2)
          (st.m_requires, st.m_requiredBy)).2 := by
      refine all_edgeFold_snd st (fun l => a ∉ l) (by simp) _ _ ?_ ?_
      · intro e he' l hl hmem
        rcases List.mem_append.mp hmem with h1 | h1
        · exact hl h1
        · exact hedge e he' (List.mem_singleton.mp h1).symm
      · rw [he.2]; intro e hmem; simp at hmem
    have hall : QHash.All (fun l => a ∉ l) (onParseFinished st).m_requiredBy := by
      simp only [onParseFinished, hp, Bool.false_eq_true, if_false, buildLoop_eq]
      exact hashAll_dedupLoop hbuilt (by simp)
        (fun l hl hmem => hl (removeDuplicates_subset st l a hmem))
    exact hall

/-- C9 (amended) at a mod with one declared dependency that no mod has and one
`REQUIRED` metadata dependency whose project exists only at another provider. -/
theorem C9_dangling_no_edge_witness :
    UniqueModId danglingModel 0 ∧
    MappingsEmpty danglingModel ∧ danglingModel.hasPendingParseTasks = false ∧
    NothingResolves danglingModel 0 ∧ NoEdgeAfterRebuild danglingModel 0 :=
  ⟨by decide, by decide, by decide, by decide,
   C9_dangling_no_edge danglingModel 0 (by decide) (by decide) (by decide) (by decide)⟩

/-! ## One call of `getAffectedMods` -/

theorem visitFold_snd (st : ModFolderModel) (sel : List ModPtr) (b : Bool)
    (cands : List ModPtr) (seen : List QString) (out : List QModelIndex) :
    ∃ seen', cands.foldl (visitAffected st sel b) (seen, out)
      = (seen', out ++ (affectedPtrs st sel b seen cands).map (toIndex st)) ∧
      ∀ cs, affectedPtrs st sel b seen (cands ++ cs)
        = affectedPtrs st sel b seen cands ++ affectedPtrs st sel b seen' cs := by
  induction cands generalizing seen out with
  | nil => exact ⟨seen, by simp [affectedPtrs], fun cs => by simp [affectedPtrs]⟩
  | cons c cs ih =>
    simp only [List.foldl_cons, List.cons_append]
    by_cases h1 : findById st sel (st.at c).mod_id = none ∧ (st.at c).mod_id ∉ seen
    · by_cases h2 : b ≠ (st.at c).enabled
      · obtain ⟨seen', hfold, happ⟩ := ih ((st.at c).mod_id :: seen)
          (out ++ [toIndex st c])
        refine ⟨seen', ?_, ?_⟩
        · simp only [visitAffected, h1, h2, and_self, not_false_eq_true, if_true,
            affectedPtrs, ne_eq]
          simpa [toIndex] using hfold
        · intro cs'
          simp only [affectedPtrs, h1, h2, and_self, not_false_eq_true, if_true, ne_eq,
            List.cons_append, happ cs']
      · obtain ⟨seen', hfold, happ⟩ := ih ((st.at c).mod_id :: seen) out
        refine ⟨seen', ?_, ?_⟩
        · simp only [visitAffected, h1, h2, and_self, not_false_eq_true, if_true, if_false,
            affectedPtrs]
          exact hfold
        · intro cs'
          simp only [affectedPtrs, h1, h2, and_self, not_false_eq_true, if_true, if_false,
            happ cs']
    · obtain ⟨seen', hfold, happ⟩ := ih seen out
      refine ⟨seen', ?_, ?_⟩
      · simp only [visitAffected, h1, if_false, affectedPtrs]
        exact hfold
      · intro cs'
        simp only [affectedPtrs, h1, if_false, happ cs']

theorem collectFold_snd (st : ModFolderModel) (sel : List ModPtr) (action : EnableAction)
    (ms : List ModPtr) (seen : List QString) (out : List QModelIndex) :
    (ms.foldl
        (fun acc mod =>
          (neighbours st action (st.at mod).mod_id).foldl
            (visitAffected st sel (action == EnableAction.ENABLE)) acc)
        (seen, out)).2
      = out ++ (affectedPtrs st sel (action == EnableAction.ENABLE) seen
          (ms.flatMap (fun mod => neighbours st action (st.at mod).mod_id))).map
            (toIndex st) := by
  induction ms generalizing seen out with
  | nil => simp [affectedPtrs]
  | cons m ms ih =>
    obtain ⟨seen', hfold, happ⟩ := visitFold_snd st sel (action == EnableAction.ENABLE)
      (neighbours st action (st.at m).mod_id) seen out
    simp only [List.foldl_cons, List.flatMap_cons, hfold, ih, happ, List.map_append,
      List.append_assoc]

theorem collectAffected_snd (st : ModFolderModel) (sel : List ModPtr)
    (action : EnableAction) :
    (collectAffected st sel action).2 = (stepMods st sel action).map (toIndex st) := by
  unfold collectAffected stepMods candidates
  rw [collectFold_snd]
  simp

theorem findById_eq_none_iff (st : ModFolderModel) (sel : List ModPtr) (x : QString) :
    findById st sel x = none ↔ x ∉ modIds st sel := by
  unfold findById modIds
  rw [List.find?_eq_none]
  simp only [List.mem_map, not_exists, not_and, beq_iff_eq]

theorem mem_affectedPtrs (st : ModFolderModel) (sel : List ModPtr) (b : Bool)
    (seen : List QString) (cands : List ModPtr) (c : ModPtr)
    (hc : c ∈ affectedPtrs st sel b seen cands) :
    c ∈ cands ∧ (st.at c).mod_id ∉ modIds st sel ∧ (st.at c).mod_id ∉ seen ∧
      b ≠ (st.at c).enabled := by
  induction cands generalizing seen with
  | nil => simp [affectedPtrs] at hc
  | cons d ds ih =>
    by_cases h1 : findById st sel (st.at d).mod_id = none ∧ (st.at d).mod_id ∉ seen
    · by_cases h2 : b ≠ (st.at d).enabled
      · simp only [affectedPtrs, h1, h2, and_self, not_false_eq_true, if_true, ne_eq,
          List.mem_cons] at hc
        rcases hc with hc | hc
        · subst hc
          exact ⟨List.mem_cons_self _ _, (findById_eq_none_iff st sel _).mp h1.1, h1.2, h2⟩
        · obtain ⟨h3, h4, h5, h6⟩ := ih _ hc
          exact ⟨List.mem_cons_of_mem _ h3, h4, fun h => h5 (List.mem_cons_of_mem _ h), h6⟩
      · simp only [affectedPtrs, h1, h2, and_self, not_false_eq_true, if_true, if_false]
          at hc
        obtain ⟨h3, h4, h5, h6⟩ := ih _ hc
        exact ⟨List.mem_cons_of_mem _ h3, h4, fun h => h5 (List.mem_cons_of_mem _ h), h6⟩
    · simp only [affectedPtrs, h1, if_false] at hc
      obtain ⟨h3, h4, h5, h6⟩ := ih _ hc
      exact ⟨List.mem_cons_of_mem _ h3, h4, h5, h6⟩

theorem affectedPtrs_complete (st : ModFolderModel) (sel : List ModPtr) (b : Bool)
    (seen : List QString) (cands : List ModPtr)
    (hinj : ∀ p ∈ cands, ∀ q ∈ cands, (st.at p).mod_id = (st.at q).mod_id → p = q)
    (c : ModPtr) (hc : c ∈ cands) (hsel : (st.at c).mod_id ∉ modIds st sel)
    (hseen : (st.at c).mod_id ∉ seen) (hb : b ≠ (st.at c).enabled) :
    c ∈ affectedPtrs st sel b seen cands := by
  induction cands generalizing seen with
  | nil => simp at hc
  | cons d ds ih =>
    have hinj' : ∀ p ∈ ds, ∀ q ∈ ds, (st.at p).mod_id = (st.at q).mod_id → p = q :=
      fun p hp q hq => hinj p (List.mem_cons_of_mem _ hp) q (List.mem_cons_of_mem _ hq)
    by_cases hcd : c = d
    · subst hcd
      have h1 : findById st sel (st.at c).mod_id = none ∧ (st.at c).mod_id ∉ seen :=
        ⟨(findById_eq_none_iff st sel _).mpr hsel, hseen⟩
      simp only [affectedPtrs, h1, hb, and_self, not_false_eq_true, if_true, ne_eq,
        List.mem_cons, true_or]
    · have hc' : c ∈ ds := by
        rcases List.mem_cons.mp hc with h | h
        · exact absurd h hcd
        · exact h
      have hid : (st.at c).mod_id ≠ (st.at d).mod_id := fun h =>
        hcd (hinj c hc d (List.mem_cons_self _ _) h)
      have hseen' : (st.at c).mod_id ∉ (st.at d).mod_id :: seen := by
        intro h
        rcases List.mem_cons.mp h with h | h
        · exact hid h
        · exact hseen h
      by_cases h1 : findById st sel (st.at d).mod_id = none ∧ (st.at d).mod_id ∉ seen
      · by_cases h2 : b ≠ (st.at d).enabled
        · simp only [affectedPtrs, h1, h2, and_self, not_false_eq_true, if_true, ne_eq,
            List.mem_cons]
          exact Or.inr (ih _ hinj' hc' hseen')
        · simp only [affectedPtrs, h1, h2, and_self, not_false_eq_true, if_true, if_false]
          exact ih _ hinj' hc' hseen'
      · simp only [affectedPtrs, h1, if_false]
        exact ih _ hinj' hc' hseen

theorem mem_candidates (st : ModFolderModel) (sel : List ModPtr) (action : EnableAction)
    (c : ModPtr) :
    c ∈ candidates st sel action ↔ ∃ s ∈ sel, DependsEdge st action s c := by
  simp [candidates, DependsEdge]

theorem neighbours_valid (st : ModFolderModel) (hv : ValidMappings st)
    (action : EnableAction) (k : QString) : ValidList st (neighbours st action k) := by
  cases action with
  | ENABLE => exact validHash_value hv.1 k
  | DISABLE => exact validHash_value hv.2 k
  | TOGGLE => exact validList_nil st

theorem candidates_valid (st : ModFolderModel) (hv : ValidMappings st) (sel : List ModPtr)
    (action : EnableAction) : ValidList st (candidates st sel action) := by
  intro c hc
  obtain ⟨s, -, hs⟩ := (mem_candidates st sel action c).mp hc
  exact neighbours_valid st hv action _ c hs

theorem mem_stepMods (st : ModFolderModel) (sel : List ModPtr) (action : EnableAction)
    (c : ModPtr) (hc : c ∈ stepMods st sel action) :
    (∃ s ∈ sel, DependsEdge st action s c) ∧ (st.at c).mod_id ∉ modIds st sel ∧
      (action == EnableAction.ENABLE) ≠ (st.at c).enabled := by
  obtain ⟨h1, h2, -, h4⟩ := mem_affectedPtrs st sel _ [] _ c hc
  exact ⟨(mem_candidates st sel action c).mp h1, h2, h4⟩

theorem stepMods_valid (st : ModFolderModel) (hv : ValidMappings st) (sel : List ModPtr)
    (action : EnableAction) : ValidList st (stepMods st sel action) := by
  intro c hc
  obtain ⟨s, -, hs⟩ := (mem_stepMods st sel action c hc).1
  exact neighbours_valid st hv action _ c hs

theorem toIndex_eq (st : ModFolderModel) (hw : WellIndexed st) (c : ModPtr)
    (hc : c < st.m_resources.length) : toIndex st c = ⟨c, 0⟩ := by
  simp [toIndex, hw c (mem_allMods.mpr hc)]

theorem map_toIndex_eq (st : ModFolderModel) (hw : WellIndexed st) (l : List ModPtr)
    (hl : ValidList st l) : l.map (toIndex st) = l.map (fun c => (⟨c, 0⟩ : QModelIndex)) :=
  List.map_congr_left (fun c hc => toIndex_eq st hw c (hl c hc))

theorem selectedMods_append_step (st : ModFolderModel) (indexes : List QModelIndex)
    (l : List ModPtr) :
    st.selectedMods (indexes ++ l.map (fun c => (⟨c, 0⟩ : QModelIndex)))
      = st.selectedMods indexes ++ l := by
  simp [ModFolderModel.selectedMods, List.filter_map, Function.comp_def]

/-! ## The recursion of `getAffectedMods` -/

theorem unselected_le (st : ModFolderModel) (sel : List ModPtr) :
    unselected st sel ≤ st.m_resources.length := by
  unfold unselected
  calc (st.allMods.filter _).length ≤ st.allMods.length := List.length_filter_le _ _
    _ = st.m_resources.length := by simp [ModFolderModel.allMods]

/-- A call that adds mods leaves fewer mod ids outside the next selection. -/
theorem unselected_lt (st : ModFolderModel) (hv : ValidMappings st) (sel : List ModPtr)
    (action : EnableAction) (hne : stepMods st sel action ≠ []) :
    unselected st (sel ++ stepMods st sel action) < unselected st sel := by
  obtain ⟨c, hc⟩ := List.exists_mem_of_ne_nil _ hne
  have hcv := stepMods_valid st hv sel action c hc
  have hcs := (mem_stepMods st sel action c hc).2.1
  have hsplit : st.allMods.filter
      (fun p => decide ((st.at p).mod_id ∉ modIds st (sel ++ stepMods st sel action)))
      = (st.allMods.filter (fun p => decide ((st.at p).mod_id ∉ modIds st sel))).filter
          (fun p => decide ((st.at p).mod_id ∉ modIds st (stepMods st sel action))) := by
    rw [List.filter_filter]
    apply List.filter_congr
    intro p _
    simp only [modIds, List.map_append, List.mem_append, not_or, Bool.decide_and]
    exact Bool.and_comm _ _
  unfold unselected
  rw [hsplit, List.length_filter_lt_length_iff_exists]
  refine ⟨c, ?_, ?_⟩
  · exact List.mem_filter.mpr ⟨mem_allMods.mpr hcv, by simpa using hcs⟩
  · simp only [decide_eq_true_eq, not_not]
    exact List.mem_map.mpr ⟨c, hc, rfl⟩

theorem resolveAction_of_ne_toggle (st : ModFolderModel) (sel : List ModPtr)
    (action : EnableAction) (hact : action ≠ EnableAction.TOGGLE) :
    resolveAction st sel action = some action := by
  simp [resolveAction, hact]

theorem resolveAction_ne_toggle (st : ModFolderModel) (sel : List ModPtr)
    (action resolved : EnableAction) (h : resolveAction st sel action = some resolved) :
    resolved ≠ EnableAction.TOGGLE := by
  unfold resolveAction at h
  by_cases hact : action = EnableAction.TOGGLE
  · simp only [hact, if_true] at h
    by_cases hlen : sel.length ≠ 1
    · simp [hlen] at h
    · simp only [hlen, if_false, Option.some.injEq] at h
      rw [← h]
      split <;> simp
  · simp only [hact, if_false, Option.some.injEq] at h
    rw [← h]; exact hact

theorem stepMods_nil (st : ModFolderModel) (action : EnableAction) :
    stepMods st [] action = [] := by
  simp [stepMods, candidates, affectedPtrs]

/-- One unfolding of `getAffectedMods` for `ENABLE` or `DISABLE`, on the mods. -/
theorem getAffectedMods_succ (st : ModFolderModel) (hw : WellIndexed st)
    (hv : ValidMappings st) (action : EnableAction) (hact : action ≠ EnableAction.TOGGLE)
    (fuel : Nat) (indexes : List QModelIndex) :
    getAffectedMods st (fuel + 1) indexes action
      = if stepMods st (st.selectedMods indexes) action = [] then some []
        else
          match getAffectedMods st fuel
            (indexes ++ (stepMods st (st.selectedMods indexes) action).map
              (fun c => (⟨c, 0⟩ : QModelIndex))) action with
          | none => none
          | some more =>
            some ((stepMods st (st.selectedMods indexes) action).map
              (fun c => (⟨c, 0⟩ : QModelIndex)) ++ more) := by
  have hmap := map_toIndex_eq st hw _ (stepMods_valid st hv (st.selectedMods indexes) action)
  by_cases hempty : indexes = []
  · subst hempty
    simp [getAffectedMods, ModFolderModel.selectedMods, stepMods_nil]
  · have hne : indexes.isEmpty = false := by
      cases indexes with
      | nil => exact absurd rfl hempty
      | cons _ _ => rfl
    simp only [getAffectedMods, hne, Bool.false_eq_true, if_false,
      resolveAction_of_ne_toggle st _ action hact, collectAffected_snd, hmap]
    by_cases hstep : stepMods st (st.selectedMods indexes) action = []
    · simp [hstep]
    · have : (List.map (fun c => (⟨c, 0⟩ : QModelIndex))
          (stepMods st (st.selectedMods indexes) action)).isEmpty = false := by
        cases hs : stepMods st (st.selectedMods indexes) action with
        | nil => exact absurd hs hstep
        | cons _ _ => rfl
      simp only [this, Bool.not_false, if_true, hstep, if_false]

/-- Induction along the recursion of `getAffectedMods`: with more fuel than
mod ids outside the selection the call returns, and its result satisfies every
property that holds of the empty result where a call adds nothing and is
carried from the recursive call to the caller. -/
theorem getAffectedMods_induct (st : ModFolderModel) (hw : WellIndexed st)
    (hv : ValidMappings st) (action : EnableAction) (hact : action ≠ EnableAction.TOGGLE)
    (Q : List ModPtr → List QModelIndex → Prop)
    (hbase : ∀ sel, stepMods st sel action = [] → Q sel [])
    (hstep : ∀ sel r, stepMods st sel action ≠ [] →
      Q (sel ++ stepMods st sel action) r →
      Q sel ((stepMods st sel action).map (fun c => (⟨c, 0⟩ : QModelIndex)) ++ r))
    (fuel : Nat) (indexes : List QModelIndex)
    (hfuel : unselected st (st.selectedMods indexes) < fuel) :
    ∃ r, getAffectedMods st fuel indexes action = some r ∧
      Q (st.selectedMods indexes) r := by
  induction fuel generalizing indexes with
  | zero => exact absurd hfuel (Nat.not_lt_zero _)
  | succ fuel ih =>
    rw [getAffectedMods_succ st hw hv action hact]
    by_cases hs : stepMods st (st.selectedMods indexes) action = []
    · exact ⟨[], by simp [hs], hbase _ hs⟩
    · have hlt := unselected_lt st hv (st.selectedMods indexes) action hs
      obtain ⟨r, hr, hQ⟩ := ih
        (indexes ++ (stepMods st (st.selectedMods indexes) action).map
          (fun c => (⟨c, 0⟩ : QModelIndex)))
        (by rw [selectedMods_append_step]; omega)
      rw [selectedMods_append_step] at hQ
      exact ⟨_, by simp [hs, hr], hstep _ r hs hQ⟩

theorem getAffectedMods_toggle (st : ModFolderModel) (fuel : Nat)
    (indexes : List QModelIndex) (resolved : EnableAction)
    (h : resolveAction st (st.selectedMods indexes) EnableAction.TOGGLE = some resolved) :
    getAffectedMods st (fuel + 1) indexes EnableAction.TOGGLE
      = getAffectedMods st (fuel + 1) indexes resolved := by
  have h2 := resolveAction_of_ne_toggle st (st.selectedMods indexes) resolved
    (resolveAction_ne_toggle st _ _ _ h)
  simp only [getAffectedMods, h, h2]

/-- Enough fuel: more than the number of mods of the collection. -/
theorem getAffectedMods_returns (st : ModFolderModel) (hw : WellIndexed st)
    (hv : ValidMappings st) (indexes : List QModelIndex) (action : EnableAction)
    (fuel : Nat) (hfuel : st.m_resources.length < fuel) :
    ∃ r, getAffectedMods st fuel indexes action = some r := by
  have hlt : unselected st (st.selectedMods indexes) < fuel :=
    Nat.lt_of_le_of_lt (unselected_le st _) hfuel
  by_cases hact : action = EnableAction.TOGGLE
  · subst hact
    cases fuel with
    | zero => exact absurd hfuel (Nat.not_lt_zero _)
    | succ fuel =>
      cases hres : resolveAction st (st.selectedMods indexes) EnableAction.TOGGLE with
      | none =>
        refine ⟨[], ?_⟩
        simp only [getAffectedMods, hres]
        split <;> rfl
      | some resolved =>
        rw [getAffectedMods_toggle st fuel indexes resolved hres]
        obtain ⟨r, hr, -⟩ := getAffectedMods_induct st hw hv resolved
          (resolveAction_ne_toggle st _ _ _ hres) (fun _ _ => True) (fun _ _ => trivial)
          (fun _ _ _ _ => trivial) (fuel + 1) indexes hlt
        exact ⟨r, hr⟩
  · obtain ⟨r, hr, -⟩ := getAffectedMods_induct st hw hv action hact
      (fun _ _ => True) (fun _ _ => trivial) (fun _ _ _ _ => trivial) fuel indexes hlt
    exact ⟨r, hr⟩

/-! ## The closure computed by `getAffectedMods` -/

theorem not_mem_modIds_iff (st : ModFolderModel) (hd : DistinctModIds st)
    (sel : List ModPtr) (hsel : ValidList st sel) (c : ModPtr)
    (hc : c < st.m_resources.length) :
    (st.at c).mod_id ∉ modIds st sel ↔ c ∉ sel := by
  constructor
  · intro h hmem
    exact h (List.mem_map.mpr ⟨c, hmem, rfl⟩)
  · intro h hmem
    obtain ⟨s, hs, hid⟩ := List.mem_map.mp hmem
    have : s = c := distinctModIds_inj hd (hsel s hs) hc hid
    exact h (this ▸ hs)

/-- Where every mod has the state opposite to the target, one call adds
exactly the neighbours of the selection that are not selected. -/
theorem mem_stepMods_iff (st : ModFolderModel) (hv : ValidMappings st)
    (hd : DistinctModIds st) (action : EnableAction)
    (hall : ∀ p, p < st.m_resources.length →
      (action == EnableAction.ENABLE) ≠ (st.at p).enabled)
    (sel : List ModPtr) (hsel : ValidList st sel) (c : ModPtr) :
    c ∈ stepMods st sel action ↔ c ∉ sel ∧ ∃ s ∈ sel, DependsEdge st action s c := by
  constructor
  · intro hc
    obtain ⟨h1, h2, -⟩ := mem_stepMods st sel action c hc
    have hcv := stepMods_valid st hv sel action c hc
    exact ⟨(not_mem_modIds_iff st hd sel hsel c hcv).mp h2, h1⟩
  · rintro ⟨h1, h2⟩
    have hcand : c ∈ candidates st sel action := (mem_candidates st sel action c).mpr h2
    have hvalid := candidates_valid st hv sel action
    have hcv := hvalid c hcand
    exact affectedPtrs_complete st sel _ [] _
      (fun p hp q hq h => distinctModIds_inj hd (hvalid p hp) (hvalid q hq) h) c hcand
      ((not_mem_modIds_iff st hd sel hsel c hcv).mpr h1) (by simp) (hall c hcv)

theorem reaches_mem_of_closed (st : ModFolderModel) (action : EnableAction)
    (sel : List ModPtr)
    (hclosed : ∀ p ∈ sel, ∀ q, DependsEdge st action p q → q ∈ sel)
    (x : ModPtr) (hx : Reaches st action sel x) : x ∈ sel := by
  obtain ⟨s, hs, hpath⟩ := hx
  induction hpath with
  | single h => exact hclosed s hs _ h
  | tail _ h ih => exact hclosed _ ih _ h

theorem reaches_mono {st : ModFolderModel} {action : EnableAction} {sel sel' : List ModPtr}
    (hsub : ∀ p ∈ sel, p ∈ sel') {x : ModPtr} (hx : Reaches st action sel x) :
    Reaches st action sel' x := by
  obtain ⟨s, hs, hpath⟩ := hx
  exact ⟨s, hsub s hs, hpath⟩

/-- The closure of `getAffectedMods` where every mod of the collection has the
state opposite to the target: the result is exactly the set of mods reachable
from the selection by one or more edges that are not selected. -/
theorem closure_exact (st : ModFolderModel) (hw : WellIndexed st) (hv : ValidMappings st)
    (hd : DistinctModIds st) (action : EnableAction)
    (hact : action ≠ EnableAction.TOGGLE)
    (hall : ∀ p, p < st.m_resources.length →
      (action == EnableAction.ENABLE) ≠ (st.at p).enabled)
    (indexes : List QModelIndex) (hsel : ValidSelection st indexes)
    (fuel : Nat) (hfuel : st.m_resources.length < fuel) :
    ∃ r, getAffectedMods st fuel indexes action = some r ∧
      ∀ idx, idx ∈ r ↔
        (idx.column = 0 ∧ idx.row ∉ st.selectedMods indexes ∧
          Reaches st action (st.selectedMods indexes) idx.row) := by
  have hselv : ValidList st (st.selectedMods indexes) := by
    intro p hp
    simp only [ModFolderModel.selectedMods, List.mem_map, List.mem_filter] at hp
    obtain ⟨i, ⟨hi, -⟩, rfl⟩ := hp
    exact hsel i hi
  obtain ⟨r, hr, hQ⟩ := getAffectedMods_induct st hw hv action hact
    (fun sel r => ValidList st sel → ∀ idx, idx ∈ r ↔
      (idx.column = 0 ∧ idx.row ∉ sel ∧ Reaches st action sel idx.row))
    (by
      intro sel hstep hvalid idx
      constructor
      · intro h; simp at h
      · rintro ⟨-, hnot, hreach⟩
        exfalso
        apply hnot
        apply reaches_mem_of_closed st action sel _ _ hreach
        intro p hp q hq
        by_contra hqs
        have : q ∈ stepMods st sel action :=
          (mem_stepMods_iff st hv hd action hall sel hvalid q).mpr ⟨hqs, p, hp, hq⟩
        rw [hstep] at this
        simp at this)
    (by
      intro sel r _ ih hvalid idx
      have hstepv := stepMods_valid st hv sel action
      have hvalid' : ValidList st (sel ++ stepMods st sel action) := by
        intro p hp
        rcases List.mem_append.mp hp with hp | hp
        · exact hvalid p hp
        · exact hstepv p hp
      have ih' := ih hvalid' idx
      rw [List.mem_append, ih']
      constructor
      · rintro (h | ⟨hcol, hnot, hreach⟩)
        · obtain ⟨c, hc, rfl⟩ := List.mem_map.mp h
          obtain ⟨hcs, s, hs, hedge⟩ :=
            (mem_stepMods_iff st hv hd action hall sel hvalid c).mp hc
          exact ⟨rfl, hcs, s, hs, Relation.TransGen.single hedge⟩
        · refine ⟨hcol, fun h => hnot (List.mem_append_left _ h), ?_⟩
          obtain ⟨s, hs, hpath⟩ := hreach
          rcases List.mem_append.mp hs with hs | hs
          · exact ⟨s, hs, hpath⟩
          · obtain ⟨-, s', hs', hedge⟩ :=
              (mem_stepMods_iff st hv hd action hall sel hvalid s).mp hs
            exact ⟨s', hs', Relation.TransGen.head hedge hpath⟩
      · rintro ⟨hcol, hnot, hreach⟩
        by_cases hmem : idx.row ∈ stepMods st sel action
        · left
          refine List.mem_map.mpr ⟨idx.row, hmem, ?_⟩
          cases idx
          simp only at hcol
          simp [hcol]
        · right
          refine ⟨hcol, ?_, reaches_mono (fun p hp => List.mem_append_left _ hp) hreach⟩
          intro h
          rcases List.mem_append.mp h with h | h
          · exact hnot h
          · exact hmem h)
    fuel indexes (Nat.lt_of_le_of_lt (unselected_le st _) hfuel)
  exact ⟨r, hr, hQ hselv⟩

theorem distinctModIds_onParseFinished (st : ModFolderModel) (hd : DistinctModIds st) :
    DistinctModIds (onParseFinished st) := by
  unfold DistinctModIds at hd ⊢
  have : (onParseFinished st).m_resources.map Mod.mod_id = st.m_resources.map Mod.mod_id := by
    unfold onParseFinished
    split
    · rfl
    · simp [setCounts, Function.comp_def]
  rw [this]; exact hd

theorem allEnabled_at (st : ModFolderModel) (b : Bool) (h : AllEnabled st b) (p : ModPtr)
    (hp : p < st.m_resources.length) : (st.at p).enabled = b := by
  rw [at_eq_getElem st p hp]
  exact h _ (List.getElem_mem _)

/-! ## The affected mods -/

/-- C1. Enable closure: for a collection with pairwise distinct `mod_id`s whose
mods are all disabled, and the mappings a rebuild of that collection produces
(from empty mappings, or from any that hold only mods of the collection),
`getAffectedMods(S, ENABLE)` returns (with fuel above the number of mods)
exactly the mods that are reachable from a mod of S by one or more edges of
`m_requires` and are not themselves in S: the full transitive closure. -/
theorem C1_enable_closure (st : ModFolderModel)
    (hw : WellIndexed st) (hd : DistinctModIds st) (hoff : AllEnabled st false)
    (hv : ValidMappings st)
    (indexes : List QModelIndex) (hsel : ValidSelection st indexes)
    (fuel : Nat) (hfuel : st.m_resources.length < fuel) :
    ∃ r, getAffectedMods (onParseFinished st) fuel indexes EnableAction.ENABLE = some r ∧
      ∀ idx, idx ∈ r ↔
        (idx.column = 0 ∧ idx.row ∉ (onParseFinished st).selectedMods indexes ∧
          Reaches (onParseFinished st) EnableAction.ENABLE
            ((onParseFinished st).selectedMods indexes) idx.row) := by
  have hlen := onParseFinished_length st
  apply closure_exact (onParseFinished st) (wellIndexed_onParseFinished st hw)
    (validMappings_onParseFinished st hv)
    (distinctModIds_onParseFinished st hd) EnableAction.ENABLE (by decide)
  · intro p hp
    rw [hlen] at hp
    rw [onParseFinished_enabled, allEnabled_at st false hoff p hp]
    decide
  · intro i hi; rw [hlen]; exact hsel i hi
  · rw [hlen]; exact hfuel

/-- C1 at the chain A requires B requires C, all disabled, with S = {A}: the
result is B, C. -/
theorem C1_enable_closure_witness :
    WellIndexed (chainModel false) ∧ DistinctModIds (chainModel false) ∧
    AllEnabled (chainModel false) false ∧ ValidMappings (chainModel false) ∧
    MappingsEmpty (chainModel false) ∧
    ValidSelection (chainModel false) [⟨0, 0⟩] ∧
    getAffectedMods (onParseFinished (chainModel false)) 4 [⟨0, 0⟩] EnableAction.ENABLE
      = some [⟨1, 0⟩, ⟨2, 0⟩] ∧
    ∃ r, getAffectedMods (onParseFinished (chainModel false)) 4 [⟨0, 0⟩]
        EnableAction.ENABLE = some r ∧
      ∀ idx, idx ∈ r ↔
        (idx.column = 0 ∧
          idx.row ∉ (onParseFinished (chainModel false)).selectedMods [⟨0, 0⟩] ∧
          Reaches (onParseFinished (chainModel false)) EnableAction.ENABLE
            ((onParseFinished (chainModel false)).selectedMods [⟨0, 0⟩]) idx.row) :=
  ⟨by decide, by decide, by decide, by decide, by decide, by decide, by decide,
   C1_enable_closure (chainModel false) (by decide) (by decide) (by decide) (by decide)
     [⟨0, 0⟩] (by decide) 4 (by decide)⟩

/-- C2. Disable closure: for a collection with pairwise distinct `mod_id`s
whose mods are all enabled, and the mappings a rebuild of that collection
produces (from empty mappings, or from any that hold only mods of the
collection), `getAffectedMods(S, DISABLE)` returns (with fuel above the number
of mods) exactly the mods that are reachable from a mod of S by one or more
edges of `m_requiredBy` (the transitive dependents) and are not themselves in
S. -/
theorem C2_disable_closure (st : ModFolderModel)
    (hw : WellIndexed st) (hd : DistinctModIds st) (hon : AllEnabled st true)
    (hv : ValidMappings st)
    (indexes : List QModelIndex) (hsel : ValidSelection st indexes)
    (fuel : Nat) (hfuel : st.m_resources.length < fuel) :
    ∃ r, getAffectedMods (onParseFinished st) fuel indexes EnableAction.DISABLE = some r ∧
      ∀ idx, idx ∈ r ↔
        (idx.column = 0 ∧ idx.row ∉ (onParseFinished st).selectedMods indexes ∧
          Reaches (onParseFinished st) EnableAction.DISABLE
            ((onParseFinished st).selectedMods indexes) idx.row) := by
  have hlen := onParseFinished_length st
  apply closure_exact (onParseFinished st) (wellIndexed_onParseFinished st hw)
    (validMappings_onParseFinished st hv)
    (distinctModIds_onParseFinished st hd) EnableAction.DISABLE (by decide)
  · intro p hp
    rw [hlen] at hp
    rw [onParseFinished_enabled, allEnabled_at st true hon p hp]
    decide
  · intro i hi; rw [hlen]; exact hsel i hi
  · rw [hlen]; exact hfuel

/-- C2 at the chain A requires B requires C, all enabled, with S = {C}: the
result is B, A. -/
theorem C2_disable_closure_witness :
    WellIndexed (chainModel true) ∧ DistinctModIds (chainModel true) ∧
    AllEnabled (chainModel true) true ∧ ValidMappings (chainModel true) ∧
    MappingsEmpty (chainModel true) ∧
    ValidSelection (chainModel true) [⟨2, 0⟩] ∧
    getAffectedMods (onParseFinished (chainModel true)) 4 [⟨2, 0⟩] EnableAction.DISABLE
      = some [⟨1, 0⟩, ⟨0, 0⟩] ∧
    ∃ r, getAffectedMods (onParseFinished (chainModel true)) 4 [⟨2, 0⟩]
        EnableAction.DISABLE = some r ∧
      ∀ idx, idx ∈ r ↔
        (idx.column = 0 ∧
          idx.row ∉ (onParseFinished (chainModel true)).selectedMods [⟨2, 0⟩] ∧
          Reaches (onParseFinished (chainModel true)) EnableAction.DISABLE
            ((onParseFinished (chainModel true)).selectedMods [⟨2, 0⟩]) idx.row) :=
  ⟨by decide, by decide, by decide, by decide, by decide, by decide, by decide,
   C2_disable_closure (chainModel true) (by decide) (by decide) (by decide) (by decide)
     [⟨2, 0⟩] (by decide) 4 (by decide)⟩

theorem affected_need_change (st : ModFolderModel) (hw : WellIndexed st)
    (hv : ValidMappings st) (action : EnableAction) (hact : action ≠ EnableAction.TOGGLE)
    (indexes : List QModelIndex) (fuel : Nat) (hfuel : st.m_resources.length < fuel) :
    ∃ r, getAffectedMods st fuel indexes action = some r ∧
      ∀ idx ∈ r, (action == EnableAction.ENABLE) ≠ (st.at idx.row).enabled := by
  obtain ⟨r, hr, hQ⟩ := getAffectedMods_induct st hw hv action hact
    (fun _ r => ∀ idx ∈ r, (action == EnableAction.ENABLE) ≠ (st.at idx.row).enabled)
    (by intro _ _ idx h; simp at h)
    (by
      intro sel r _ ih idx hidx
      rcases List.mem_append.mp hidx with h | h
      · obtain ⟨c, hc, rfl⟩ := List.mem_map.mp h
        exact (mem_stepMods st sel action c hc).2.2
      · exact ih idx h)
    fuel indexes (Nat.lt_of_le_of_lt (unselected_le st _) hfuel)
  exact ⟨r, hr, hQ⟩

/-- C3. Every mod returned needs a state change: for every model whose index
is consistent and whose mappings hold only mods of the collection, and every
selection, `getAffectedMods` returns (with fuel above the number of mods)
under `ENABLE` only mods that are currently disabled and under `DISABLE` only
mods that are currently enabled. -/
theorem C3_affected_need_change (st : ModFolderModel) (hw : WellIndexed st)
    (hv : ValidMappings st) (indexes : List QModelIndex)
    (fuel : Nat) (hfuel : st.m_resources.length < fuel) :
    (∃ r, getAffectedMods st fuel indexes EnableAction.ENABLE = some r ∧
      ∀ idx ∈ r, (st.at idx.row).enabled = false) ∧
    (∃ r, getAffectedMods st fuel indexes EnableAction.DISABLE = some r ∧
      ∀ idx ∈ r, (st.at idx.row).enabled = true) := by
  constructor
  · obtain ⟨r, hr, h⟩ := affected_need_change st hw hv EnableAction.ENABLE (by decide)
      indexes fuel hfuel
    refine ⟨r, hr, fun idx hidx => ?_⟩
    have := h idx hidx
    revert this
    cases (st.at idx.row).enabled <;> simp
  · obtain ⟨r, hr, h⟩ := affected_need_change st hw hv EnableAction.DISABLE (by decide)
      indexes fuel hfuel
    refine ⟨r, hr, fun idx hidx => ?_⟩
    have := h idx hidx
    revert this
    cases (st.at idx.row).enabled <;> simp

/-- C3 where A requires B and B is already enabled: `getAffectedMods({A},
ENABLE)` does not contain B (it is empty). -/
theorem C3_affected_need_change_witness :
    WellIndexed (onParseFinished satisfiedModel) ∧
    ValidMappings (onParseFinished satisfiedModel) ∧
    (onParseFinished satisfiedModel).m_requires.value "a" = [1] ∧
    getAffectedMods (onParseFinished satisfiedModel) 4 [⟨0, 0⟩] EnableAction.ENABLE
      = some [] ∧
    ((∃ r, getAffectedMods (onParseFinished satisfiedModel) 4 [⟨0, 0⟩]
        EnableAction.ENABLE = some r ∧
      ∀ idx ∈ r, ((onParseFinished satisfiedModel).at idx.row).enabled = false) ∧
    (∃ r, getAffectedMods (onParseFinished satisfiedModel) 4 [⟨0, 0⟩]
        EnableAction.DISABLE = some r ∧
      ∀ idx ∈ r, ((onParseFinished satisfiedModel).at idx.row).enabled = true)) :=
  ⟨by decide, by decide, by decide, by decide,
   C3_affected_need_change (onParseFinished satisfiedModel) (by decide) (by decide)
     [⟨0, 0⟩] 4 (by decide)⟩

/-- C6. Termination and cycle safety: for every model whose index is
consistent and whose mappings hold only mods of the collection (cycles and
self-edges included), every selection and every action, `getAffectedMods`
returns once its fuel exceeds the number of mods; and whenever a call
recurses, the selection of the recursive call contains a `mod_id` that the
selection of the caller does not contain. -/
theorem C6_terminates (st : ModFolderModel) (hw : WellIndexed st)
    (hv : ValidMappings st) :
    (∀ (indexes : List QModelIndex) (action : EnableAction) (fuel : Nat),
      st.m_resources.length < fuel →
      ∃ r, getAffectedMods st fuel indexes action = some r) ∧
    (∀ (indexes : List QModelIndex) (action : EnableAction),
      (collectAffected st (st.selectedMods indexes) action).2 ≠ [] →
      ∃ x ∈ modIds st (st.selectedMods
          (indexes ++ (collectAffected st (st.selectedMods indexes) action).2)),
        x ∉ modIds st (st.selectedMods indexes)) := by
  constructor
  · intro indexes action fuel hfuel
    exact getAffectedMods_returns st hw hv indexes action fuel hfuel
  · intro indexes action hne
    rw [collectAffected_snd,
      map_toIndex_eq st hw _ (stepMods_valid st hv (st.selectedMods indexes) action)] at hne ⊢
    rw [selectedMods_append_step]
    obtain ⟨i, hi⟩ := List.exists_mem_of_ne_nil _ hne
    obtain ⟨c, hc, -⟩ := List.mem_map.mp hi
    refine ⟨(st.at c).mod_id, ?_, (mem_stepMods st _ action c hc).2.1⟩
    exact List.mem_map.mpr ⟨c, List.mem_append_right _ hc, rfl⟩

/-- C6 at the cycle A requires B requires A, all disabled:
`getAffectedMods({A}, ENABLE)` returns B. -/
theorem C6_terminates_witness :
    WellIndexed (onParseFinished cycleModel) ∧ ValidMappings (onParseFinished cycleModel) ∧
    (onParseFinished cycleModel).m_requires = [("a", [1]), ("b", [0])] ∧
    getAffectedMods (onParseFinished cycleModel) 3 [⟨0, 0⟩] EnableAction.ENABLE
      = some [⟨1, 0⟩] ∧
    ((∀ (indexes : List QModelIndex) (action : EnableAction) (fuel : Nat),
      (onParseFinished cycleModel).m_resources.length < fuel →
      ∃ r, getAffectedMods (onParseFinished cycleModel) fuel indexes action = some r) ∧
    (∀ (indexes : List QModelIndex) (action : EnableAction),
      (collectAffected (onParseFinished cycleModel)
        ((onParseFinished cycleModel).selectedMods indexes) action).2 ≠ [] →
      ∃ x ∈ modIds (onParseFinished cycleModel) ((onParseFinished cycleModel).selectedMods
          (indexes ++ (collectAffected (onParseFinished cycleModel)
            ((onParseFinished cycleModel).selectedMods indexes) action).2)),
        x ∉ modIds (onParseFinished cycleModel)
          ((onParseFinished cycleModel).selectedMods indexes))) :=
  ⟨by decide, by decide, by decide, by decide,
   C6_terminates (onParseFinished cycleModel) (by decide) (by decide)⟩

/-- C10. `TOGGLE` on a selection whose list of selected mods has a length
other than 1 (two or more mods, or none) is rejected: `getAffectedMods`
returns the empty list, whatever the mappings hold. -/
theorem C10_toggle_multi_empty (st : ModFolderModel) (indexes : List QModelIndex)
    (fuel : Nat) (hlen : (st.selectedMods indexes).length ≠ 1) :
    getAffectedMods st (fuel + 1) indexes EnableAction.TOGGLE = some [] := by
  simp only [getAffectedMods, resolveAction, hlen]
  split <;> rfl

/-- C10 at the selection {A, B} of the rebuilt chain. -/
theorem C10_toggle_multi_empty_witness :
    ((onParseFinished (chainModel false)).selectedMods [⟨0, 0⟩, ⟨1, 0⟩]).length ≠ 1 ∧
    getAffectedMods (onParseFinished (chainModel false)) (0 + 1) [⟨0, 0⟩, ⟨1, 0⟩]
      EnableAction.TOGGLE = some [] :=
  ⟨by decide,
   C10_toggle_multi_empty (onParseFinished (chainModel false)) [⟨0, 0⟩, ⟨1, 0⟩] 0
     (by decide)⟩

/-! ## `TOGGLE`, the selection, and applying the change -/

theorem getAffectedMods_zero (st : ModFolderModel) (indexes : List QModelIndex)
    (action : EnableAction) : getAffectedMods st 0 indexes action = none := rfl

/-- C11. `TOGGLE` on a single mod resolves to a direction: when the list of
selected mods is the single mod M, `getAffectedMods(selection, TOGGLE)` is
`getAffectedMods(selection, DISABLE)` if M is enabled and
`getAffectedMods(selection, ENABLE)` if M is disabled (for every fuel, so one
returns exactly when the other does). -/
theorem C11_toggle_single (st : ModFolderModel) (fuel : Nat) (indexes : List QModelIndex)
    (m : ModPtr) (hsel : st.selectedMods indexes = [m]) :
    getAffectedMods st fuel indexes EnableAction.TOGGLE
      = getAffectedMods st fuel indexes
          (if (st.at m).enabled then EnableAction.DISABLE else EnableAction.ENABLE) := by
  cases fuel with
  | zero => rfl
  | succ fuel =>
    apply getAffectedMods_toggle
    simp [resolveAction, hsel]

/-- C11 at the chain with B enabled: toggling the disabled A is enabling it,
toggling the enabled B is disabling it. -/
theorem C11_toggle_single_witness :
    (onParseFinished satisfiedModel).selectedMods [⟨0, 0⟩] = [0] ∧
    ((onParseFinished satisfiedModel).at 0).enabled = false ∧
    getAffectedMods (onParseFinished satisfiedModel) 4 [⟨0, 0⟩] EnableAction.ENABLE
      = some [] ∧
    getAffectedMods (onParseFinished satisfiedModel) 4 [⟨0, 0⟩] EnableAction.TOGGLE
      = getAffectedMods (onParseFinished satisfiedModel) 4 [⟨0, 0⟩]
          (if ((onParseFinished satisfiedModel).at 0).enabled then EnableAction.DISABLE
           else EnableAction.ENABLE) :=
  ⟨by decide, by decide, by decide,
   C11_toggle_single (onParseFinished satisfiedModel) 4 [⟨0, 0⟩] 0 (by decide)⟩

/-- Induction along the recursion for a property that does not depend on the
action, for every action, `TOGGLE` included. -/
theorem getAffectedMods_induct_any (st : ModFolderModel) (hw : WellIndexed st)
    (hv : ValidMappings st) (Q : List ModPtr → List QModelIndex → Prop)
    (hnil : ∀ sel, Q sel [])
    (hstep : ∀ action sel r, stepMods st sel action ≠ [] →
      Q (sel ++ stepMods st sel action) r →
      Q sel ((stepMods st sel action).map (fun c => (⟨c, 0⟩ : QModelIndex)) ++ r))
    (indexes : List QModelIndex) (action : EnableAction)
    (fuel : Nat) (hfuel : st.m_resources.length < fuel) :
    ∃ r, getAffectedMods st fuel indexes action = some r ∧
      Q (st.selectedMods indexes) r := by
  have hlt : unselected st (st.selectedMods indexes) < fuel :=
    Nat.lt_of_le_of_lt (unselected_le st _) hfuel
  by_cases hact : action = EnableAction.TOGGLE
  · subst hact
    cases fuel with
    | zero => exact absurd hfuel (Nat.not_lt_zero _)
    | succ fuel =>
      cases hres : resolveAction st (st.selectedMods indexes) EnableAction.TOGGLE with
      | none =>
        refine ⟨[], ?_, hnil _⟩
        simp only [getAffectedMods, hres]
        split <;> rfl
      | some resolved =>
        rw [getAffectedMods_toggle st fuel indexes resolved hres]
        exact getAffectedMods_induct st hw hv resolved
          (resolveAction_ne_toggle st _ _ _ hres) Q (fun sel _ => hnil sel)
          (hstep resolved) (fuel + 1) indexes hlt
  · exact getAffectedMods_induct st hw hv action hact Q (fun sel _ => hnil sel)
      (hstep action) fuel indexes hlt

/-- C12. The affected set excludes the selection: for every model whose index
is consistent and whose mappings hold only mods of the collection, every
selection and every action, no mod that `getAffectedMods` returns (with fuel
above the number of mods) has the `mod_id` of a selected mod. -/
theorem C12_excludes_selection (st : ModFolderModel) (hw : WellIndexed st)
    (hv : ValidMappings st) (indexes : List QModelIndex) (action : EnableAction)
    (fuel : Nat) (hfuel : st.m_resources.length < fuel) :
    ∃ r, getAffectedMods st fuel indexes action = some r ∧
      ∀ idx ∈ r, (st.at idx.row).mod_id ∉ modIds st (st.selectedMods indexes) := by
  apply getAffectedMods_induct_any st hw hv
    (fun sel r => ∀ idx ∈ r, (st.at idx.row).mod_id ∉ modIds st sel)
    (by intro _ idx h; simp at h)
    _ indexes action fuel hfuel
  intro act sel r _ ih idx hidx
  rcases List.mem_append.mp hidx with h | h
  · obtain ⟨c, hc, rfl⟩ := List.mem_map.mp h
    exact (mem_stepMods st sel act c hc).2.1
  · intro hmem
    exact ih idx h ((mem_modIds_append st _ _ _).mpr (Or.inl hmem))

/-- C12 at the cycle A requires B requires A with both selected: each is a
dependency of the other, and nothing is returned. -/
theorem C12_excludes_selection_witness :
    WellIndexed (onParseFinished cycleModel) ∧ ValidMappings (onParseFinished cycleModel) ∧
    getAffectedMods (onParseFinished cycleModel) 3 [⟨0, 0⟩, ⟨1, 0⟩] EnableAction.ENABLE
      = some [] ∧
    ∃ r, getAffectedMods (onParseFinished cycleModel) 3 [⟨0, 0⟩, ⟨1, 0⟩]
        EnableAction.ENABLE = some r ∧
      ∀ idx ∈ r, ((onParseFinished cycleModel).at idx.row).mod_id ∉
        modIds (onParseFinished cycleModel)
          ((onParseFinished cycleModel).selectedMods [⟨0, 0⟩, ⟨1, 0⟩]) :=
  ⟨by decide, by decide, by decide,
   C12_excludes_selection (onParseFinished cycleModel) (by decide) (by decide)
     [⟨0, 0⟩, ⟨1, 0⟩] EnableAction.ENABLE 3 (by decide)⟩

/-- C13. Applying: for every selection and action, `setResourceEnabled` (with
fuel above the number of mods, on a model whose index is consistent and whose
mappings hold only mods of the collection) hands the bulk operation of the
base class exactly the selection followed by `getAffectedMods(selection,
action)`, with the requested action, once; its boolean and the model it leaves
are those of that one call. -/
theorem C13_apply_forwards (st : ModFolderModel) (hw : WellIndexed st)
    (hv : ValidMappings st)
    (base : ModFolderModel → List QModelIndex → EnableAction → Bool × ModFolderModel)
    (indexes : List QModelIndex) (action : EnableAction)
    (fuel : Nat) (hfuel : st.m_resources.length < fuel) :
    ∃ affected, getAffectedMods st fuel indexes action = some affected ∧
      setResourceEnabled st base fuel indexes action
        = some (base st (indexes ++ affected) action) := by
  obtain ⟨r, hr⟩ := getAffectedMods_returns st hw hv indexes action fuel hfuel
  exact ⟨r, hr, by simp [setResourceEnabled, hr]⟩

/-- C13 at the rebuilt chain, all disabled: enabling A hands A, B, C to the
bulk operation, which succeeds and enables the three. -/
theorem C13_apply_forwards_witness :
    WellIndexed (onParseFinished (chainModel false)) ∧
    ValidMappings (onParseFinished (chainModel false)) ∧
    (setResourceEnabled (onParseFinished (chainModel false)) sampleBase 4 [⟨0, 0⟩]
        EnableAction.ENABLE).map Prod.fst = some true ∧
    ∃ affected, getAffectedMods (onParseFinished (chainModel false)) 4 [⟨0, 0⟩]
        EnableAction.ENABLE = some affected ∧
      setResourceEnabled (onParseFinished (chainModel false)) sampleBase 4 [⟨0, 0⟩]
          EnableAction.ENABLE
        = some (sampleBase (onParseFinished (chainModel false)) ([⟨0, 0⟩] ++ affected)
            EnableAction.ENABLE) :=
  ⟨by decide, by decide, by decide,
   C13_apply_forwards (onParseFinished (chainModel false)) (by decide) (by decide)
     sampleBase [⟨0, 0⟩] EnableAction.ENABLE 4 (by decide)⟩

theorem nodup_modIds_affectedPtrs (st : ModFolderModel) (sel : List ModPtr) (b : Bool)
    (seen : List QString) (cands : List ModPtr) :
    (modIds st (affectedPtrs st sel b seen cands)).Nodup := by
  induction cands generalizing seen with
  | nil => simp [affectedPtrs, modIds]
  | cons d ds ih =>
    by_cases h1 : findById st sel (st.at d).mod_id = none ∧ (st.at d).mod_id ∉ seen
    · by_cases h2 : b ≠ (st.at d).enabled
      · simp only [affectedPtrs, h1, h2, and_self, not_false_eq_true, if_true, ne_eq,
          modIds, List.map_cons, List.nodup_cons]
        refine ⟨?_, ih _⟩
        intro hmem
        obtain ⟨c, hc, hid⟩ := List.mem_map.mp hmem
        have := (mem_affectedPtrs st sel b _ ds c hc).2.2.1
        exact this (by rw [hid]; exact List.mem_cons_self _ _)
      · simp only [affectedPtrs, h1, h2, and_self, not_false_eq_true, if_true, if_false]
        exact ih _
    · simp only [affectedPtrs, h1, if_false]
      exact ih _

/-- C17. No duplicate entries: for every model whose index is consistent and
whose mappings hold only mods of the collection (cycles and diamonds
included), every selection and every action, the list `getAffectedMods`
returns (with fuel above the number of mods) holds no index twice, no mod
twice, and no `mod_id` twice. -/
theorem C17_result_nodup (st : ModFolderModel) (hw : WellIndexed st)
    (hv : ValidMappings st) (indexes : List QModelIndex) (action : EnableAction)
    (fuel : Nat) (hfuel : st.m_resources.length < fuel) :
    ∃ r, getAffectedMods st fuel indexes action = some r ∧
      r.Nodup ∧ (rowsOf r).Nodup ∧ (modIds st (rowsOf r)).Nodup := by
  obtain ⟨r, hr, hQ⟩ := getAffectedMods_induct_any st hw hv
    (fun sel r => (modIds st (rowsOf r)).Nodup ∧
      ∀ x ∈ modIds st (rowsOf r), x ∉ modIds st sel)
    (by intro _; simp [rowsOf, modIds])
    (by
      intro act sel r _ ih
      have hrows : rowsOf ((stepMods st sel act).map (fun c => (⟨c, 0⟩ : QModelIndex)) ++ r)
          = stepMods st sel act ++ rowsOf r := by
        simp [rowsOf, Function.comp_def]
      rw [hrows]
      constructor
      · simp only [modIds, List.map_append]
        rw [List.nodup_append]
        refine ⟨nodup_modIds_affectedPtrs st sel _ [] _, ih.1, ?_⟩
        intro x hx1 hx2
        exact ih.2 x hx2 ((mem_modIds_append st _ _ _).mpr (Or.inr hx1))
      · intro x hx
        rcases (mem_modIds_append st _ _ _).mp hx with h | h
        · obtain ⟨c, hc, rfl⟩ := List.mem_map.mp h
          exact (mem_stepMods st sel act c hc).2.1
        · intro hmem
          exact ih.2 x h ((mem_modIds_append st _ _ _).mpr (Or.inl hmem)))
    indexes action fuel hfuel
  have h3 := hQ.1
  have h2 : (rowsOf r).Nodup := List.Nodup.of_map _ h3
  exact ⟨r, hr, List.Nodup.of_map _ h2, h2, h3⟩

/-- C17 at the diamond with every mod disabled: enabling A returns B, C and D,
each once, although D is required by B and by C. -/
theorem C17_result_nodup_witness :
    WellIndexed (onParseFinished (diamondModel false)) ∧
    ValidMappings (onParseFinished (diamondModel false)) ∧
    getAffectedMods (onParseFinished (diamondModel false)) 5 [⟨0, 0⟩] EnableAction.ENABLE
      = some [⟨1, 0⟩, ⟨2, 0⟩, ⟨3, 0⟩] ∧
    ∃ r, getAffectedMods (onParseFinished (diamondModel false)) 5 [⟨0, 0⟩]
        EnableAction.ENABLE = some r ∧
      r.Nodup ∧ (rowsOf r).Nodup ∧
        (modIds (onParseFinished (diamondModel false)) (rowsOf r)).Nodup :=
  ⟨by decide, by decide, by decide,
   C17_result_nodup (onParseFinished (diamondModel false)) (by decide) (by decide)
     [⟨0, 0⟩] EnableAction.ENABLE 5 (by decide)⟩

/-! ## The cascade rule -/

theorem rowsOf_step_append (l : List ModPtr) (r : List QModelIndex) :
    rowsOf (l.map (fun c => (⟨c, 0⟩ : QModelIndex)) ++ r) = l ++ rowsOf r := by
  simp [rowsOf, Function.comp_def]

theorem validSelection_selectedMods (st : ModFolderModel) (indexes : List QModelIndex)
    (hsel : ValidSelection st indexes) : ValidList st (st.selectedMods indexes) := by
  intro p hp
  simp only [ModFolderModel.selectedMods, List.mem_map, List.mem_filter] at hp
  obtain ⟨i, ⟨hi, -⟩, rfl⟩ := hp
  exact hsel i hi

theorem validList_append {st : ModFolderModel} {l₁ l₂ : List ModPtr}
    (h₁ : ValidList st l₁) (h₂ : ValidList st l₂) : ValidList st (l₁ ++ l₂) := by
  intro p hp
  rcases List.mem_append.mp hp with hp | hp
  · exact h₁ p hp
  · exact h₂ p hp

/-- With distinct `mod_id`s, a neighbour of the selection that is not selected
and has not the target state is added by the call. -/
theorem mem_stepMods_of_needs_change (st : ModFolderModel) (hv : ValidMappings st)
    (hd : DistinctModIds st) (action : EnableAction) (sel : List ModPtr)
    (hsel : ValidList st sel) (m n : ModPtr) (hm : m ∈ sel)
    (hn : n ∈ neighbours st action (st.at m).mod_id) (hnot : n ∉ sel)
    (hstate : (st.at n).enabled ≠ (action == EnableAction.ENABLE)) :
    n ∈ stepMods st sel action := by
  have hcand : n ∈ candidates st sel action :=
    (mem_candidates st sel action n).mpr ⟨m, hm, hn⟩
  have hvalid := candidates_valid st hv sel action
  exact affectedPtrs_complete st sel _ [] _
    (fun p hp q hq h => distinctModIds_inj hd (hvalid p hp) (hvalid q hq) h) n hcand
    ((not_mem_modIds_iff st hd sel hsel n (hvalid n hcand)).mpr hnot) (by simp)
    (fun h => hstate h.symm)

theorem cascade_closed (st : ModFolderModel) (hw : WellIndexed st) (hv : ValidMappings st)
    (hd : DistinctModIds st) (action : EnableAction)
    (hact : action ≠ EnableAction.TOGGLE)
    (indexes : List QModelIndex) (hsel : ValidSelection st indexes)
    (fuel : Nat) (hfuel : st.m_resources.length < fuel) :
    ∃ r, getAffectedMods st fuel indexes action = some r ∧
      CascadeClosed st action (st.selectedMods indexes) (rowsOf r) := by
  obtain ⟨r, hr, hQ⟩ := getAffectedMods_induct st hw hv action hact
    (fun sel r => ValidList st sel → CascadeClosed st action sel (rowsOf r))
    (by
      intro sel hstep hvalid m hm n hn
      simp only [rowsOf, List.map_nil, List.append_nil] at hm ⊢
      by_cases hns : n ∈ sel
      · exact Or.inl hns
      · right
        by_contra hstate
        have := mem_stepMods_of_needs_change st hv hd action sel hvalid m n hm hn hns hstate
        rw [hstep] at this
        simp at this)
    (by
      intro sel r _ ih hvalid
      have ih' := ih (validList_append hvalid (stepMods_valid st hv sel action))
      rw [rowsOf_step_append]
      intro m hm n hn
      have := ih' m (by simpa [List.append_assoc] using hm) n hn
      simpa [List.append_assoc] using this)
    fuel indexes (Nat.lt_of_le_of_lt (unselected_le st _) hfuel)
  exact ⟨r, hr, hQ (validSelection_selectedMods st indexes hsel)⟩

/-- C15. The cascade is closed for arbitrary mixed enabled states: for every
model with pairwise distinct `mod_id`s (consistent index, mappings that hold
only mods of the collection), every selection S on rows of the model and
action `ENABLE` or `DISABLE`, with R the result of `getAffectedMods(S,
action)`: every mod N in `m_requires[M]` (for `ENABLE`) or `m_requiredBy[M]`
(for `DISABLE`) of a mod M of S or R is in S or R, or has the target state
already. -/
theorem C15_cascade_closed (st : ModFolderModel) (hw : WellIndexed st)
    (hv : ValidMappings st) (hd : DistinctModIds st) (action : EnableAction)
    (hact : action = EnableAction.ENABLE ∨ action = EnableAction.DISABLE)
    (indexes : List QModelIndex) (hsel : ValidSelection st indexes)
    (fuel : Nat) (hfuel : st.m_resources.length < fuel) :
    ∃ r, getAffectedMods st fuel indexes action = some r ∧
      ∀ m, (m ∈ st.selectedMods indexes ∨ m ∈ rowsOf r) →
        ∀ n ∈ neighbours st action (st.at m).mod_id,
          (n ∈ st.selectedMods indexes ∨ n ∈ rowsOf r) ∨
            (st.at n).enabled = (action == EnableAction.ENABLE) := by
  have hne : action ≠ EnableAction.TOGGLE := by
    rcases hact with h | h <;> rw [h] <;> decide
  obtain ⟨r, hr, hclosed⟩ := cascade_closed st hw hv hd action hne indexes hsel fuel hfuel
  refine ⟨r, hr, fun m hm n hn => ?_⟩
  have := hclosed m (List.mem_append.mpr hm) n hn
  rcases this with h | h
  · exact Or.inl (List.mem_append.mp h)
  · exact Or.inr h

/-- C15 at the diamond where C is already enabled: enabling A returns B and D;
C, required by A, is left out because it is enabled. -/
theorem C15_cascade_closed_witness :
    WellIndexed (onParseFinished (diamondModel true)) ∧
    ValidMappings (onParseFinished (diamondModel true)) ∧
    DistinctModIds (onParseFinished (diamondModel true)) ∧
    ValidSelection (onParseFinished (diamondModel true)) [⟨0, 0⟩] ∧
    getAffectedMods (onParseFinished (diamondModel true)) 5 [⟨0, 0⟩] EnableAction.ENABLE
      = some [⟨1, 0⟩, ⟨3, 0⟩] ∧
    ∃ r, getAffectedMods (onParseFinished (diamondModel true)) 5 [⟨0, 0⟩]
        EnableAction.ENABLE = some r ∧
      ∀ m, (m ∈ (onParseFinished (diamondModel true)).selectedMods [⟨0, 0⟩] ∨
          m ∈ rowsOf r) →
        ∀ n ∈ neighbours (onParseFinished (diamondModel true)) EnableAction.ENABLE
            ((onParseFinished (diamondModel true)).at m).mod_id,
          (n ∈ (onParseFinished (diamondModel true)).selectedMods [⟨0, 0⟩] ∨
            n ∈ rowsOf r) ∨
            ((onParseFinished (diamondModel true)).at n).enabled
              = (EnableAction.ENABLE == EnableAction.ENABLE) :=
  ⟨by decide, by decide, by decide, by decide, by decide,
   C15_cascade_closed (onParseFinished (diamondModel true)) (by decide) (by decide)
     (by decide) EnableAction.ENABLE (Or.inl rfl) [⟨0, 0⟩] (by decide) 5 (by decide)⟩

theorem forcedChain_mono (st : ModFolderModel) (action : EnableAction)
    (r : List QModelIndex) (sel sel' : List ModPtr) (hsub : ∀ p ∈ sel, p ∈ sel')
    (h : ForcedChain st action sel r) : ForcedChain st action sel' r := by
  induction r generalizing sel sel' with
  | nil => trivial
  | cons idx rest ih =>
    obtain ⟨⟨m, hm, hn⟩, hrest⟩ := h
    refine ⟨⟨m, hsub m hm, hn⟩, ih _ _ ?_ hrest⟩
    intro p hp
    rcases List.mem_append.mp hp with hp | hp
    · exact List.mem_append_left _ (hsub p hp)
    · exact List.mem_append_right _ hp

theorem forcedChain_append (st : ModFolderModel) (action : EnableAction)
    (r₁ r₂ : List QModelIndex) (sel : List ModPtr)
    (h₁ : ForcedChain st action sel r₁)
    (h₂ : ForcedChain st action (sel ++ rowsOf r₁) r₂) :
    ForcedChain st action sel (r₁ ++ r₂) := by
  induction r₁ generalizing sel with
  | nil => simpa [rowsOf] using h₂
  | cons idx rest ih =>
    obtain ⟨hhead, hrest⟩ := h₁
    refine ⟨hhead, ih _ hrest ?_⟩
    simpa [rowsOf, List.append_assoc] using h₂

theorem forcedChain_of_neighbours (st : ModFolderModel) (action : EnableAction)
    (sel : List ModPtr) (l : List ModPtr)
    (hl : ∀ c ∈ l, ∃ s ∈ sel, DependsEdge st action s c) :
    ForcedChain st action sel (l.map (fun c => (⟨c, 0⟩ : QModelIndex))) := by
  induction l generalizing sel with
  | nil => trivial
  | cons c cs ih =>
    refine ⟨hl c (List.mem_cons_self _ _), ih _ ?_⟩
    intro d hd
    obtain ⟨s, hs, hedge⟩ := hl d (List.mem_cons_of_mem _ hd)
    exact ⟨s, List.mem_append_left _ hs, hedge⟩

theorem forcedChain_reaches (st : ModFolderModel) (action : EnableAction)
    (origin : List ModPtr) (r : List QModelIndex) (sel : List ModPtr)
    (hsel : ∀ p ∈ sel, p ∈ origin ∨ Reaches st action origin p)
    (h : ForcedChain st action sel r) :
    ∀ idx ∈ r, Reaches st action origin idx.row := by
  induction r generalizing sel with
  | nil => intro idx hidx; simp at hidx
  | cons i rest ih =>
    obtain ⟨⟨m, hm, hn⟩, hrest⟩ := h
    have hi : Reaches st action origin i.row := by
      rcases hsel m hm with h0 | ⟨s, hs, hpath⟩
      · exact ⟨m, h0, Relation.TransGen.single hn⟩
      · exact ⟨s, hs, Relation.TransGen.tail hpath hn⟩
    intro idx hidx
    rcases List.mem_cons.mp hidx with h0 | h0
    · rw [h0]; exact hi
    · refine ih (sel ++ [i.row]) ?_ hrest idx h0
      intro p hp
      rcases List.mem_append.mp hp with hp | hp
      · exact hsel p hp
      · rw [List.mem_singleton.mp hp]; exact Or.inr hi

/-- On every model (consistent index, mappings that hold only mods of the
collection): each returned mod is a neighbour of the selection or of an
earlier returned mod, and the result lies in every set that is closed under
the cascade rule. -/
theorem forced_and_least (st : ModFolderModel) (hw : WellIndexed st)
    (hv : ValidMappings st) (action : EnableAction) (hact : action ≠ EnableAction.TOGGLE)
    (indexes : List QModelIndex) (fuel : Nat) (hfuel : st.m_resources.length < fuel) :
    ∃ r, getAffectedMods st fuel indexes action = some r ∧
      ForcedChain st action (st.selectedMods indexes) r ∧
      ∀ extra, CascadeClosed st action (st.selectedMods indexes) extra →
        ∀ p ∈ rowsOf r, p ∈ extra := by
  apply getAffectedMods_induct st hw hv action hact
    (fun sel r => ForcedChain st action sel r ∧
      ∀ extra, CascadeClosed st action sel extra → ∀ p ∈ rowsOf r, p ∈ extra)
    (by intro sel _; exact ⟨trivial, fun _ _ p hp => by simp [rowsOf] at hp⟩)
    _ fuel indexes (Nat.lt_of_le_of_lt (unselected_le st _) hfuel)
  intro sel r _ ih
  constructor
  · apply forcedChain_append
    · exact forcedChain_of_neighbours st action sel _
        (fun c hc => (mem_stepMods st sel action c hc).1)
    · have hrows : rowsOf ((stepMods st sel action).map
          (fun c => (⟨c, 0⟩ : QModelIndex))) = stepMods st sel action := by
        simp [rowsOf, Function.comp_def]
      rw [hrows]
      exact ih.1
  · intro extra hclosed
    have hstep : ∀ c ∈ stepMods st sel action, c ∈ extra := by
      intro c hc
      obtain ⟨⟨s, hs, hedge⟩, hid, hstate⟩ := mem_stepMods st sel action c hc
      have hcs : c ∉ sel := fun h => hid (List.mem_map.mpr ⟨c, h, rfl⟩)
      rcases hclosed s (List.mem_append_left _ hs) c hedge with h | h
      · rcases List.mem_append.mp h with h | h
        · exact absurd h hcs
        · exact h
      · exact absurd h.symm hstate
    have hclosed' : CascadeClosed st action (sel ++ stepMods st sel action) extra := by
      intro m hm n hn
      have hm' : m ∈ sel ++ extra := by
        rcases List.mem_append.mp hm with h | h
        · rcases List.mem_append.mp h with h | h
          · exact List.mem_append_left _ h
          · exact List.mem_append_right _ (hstep m h)
        · exact List.mem_append_right _ h
      rcases hclosed m hm' n hn with h | h
      · left
        rcases List.mem_append.mp h with h | h
        · exact List.mem_append_left _ (List.mem_append_left _ h)
        · exact List.mem_append_right _ h
      · exact Or.inr h
    intro p hp
    rw [rowsOf_step_append] at hp
    rcases List.mem_append.mp hp with h | h
    · exact hstep p h
    · exact ih.2 extra hclosed' p h

/-- C16 as stated fails where two mods share a `mod_id`: B requires the first
file of mod "a"; with B and the second file selected, `getAffectedMods`
returns nothing, because the `mod_id` of the first file is that of a selected
mod. The empty result is not closed under the cascade rule (the first file is
disabled and required by B); the least closed set is that first file. -/
theorem C16_counterexample :
    WellIndexed (onParseFinished sharedIdModel) ∧
    ValidMappings (onParseFinished sharedIdModel) ∧
    (onParseFinished sharedIdModel).m_requires.value "b" = [0] ∧
    (onParseFinished sharedIdModel).selectedMods [⟨2, 0⟩, ⟨1, 0⟩] = [2, 1] ∧
    getAffectedMods (onParseFinished sharedIdModel) 4 [⟨2, 0⟩, ⟨1, 0⟩] EnableAction.ENABLE
      = some [] ∧
    ¬ CascadeClosed (onParseFinished sharedIdModel) EnableAction.ENABLE [2, 1] (rowsOf []) ∧
    CascadeClosed (onParseFinished sharedIdModel) EnableAction.ENABLE [2, 1] [0] := by
  decide

/-- C16, amended. Minimality for a model with pairwise distinct `mod_id`s
(consistent index, mappings that hold only mods of the collection), a
selection S on rows of the model and action `ENABLE` or `DISABLE`: each mod
that `getAffectedMods` returns is a direct neighbour (in `m_requires` for
`ENABLE`, in `m_requiredBy` for `DISABLE`) of a mod of S or of a mod earlier in
the returned list, hence reachable from S by one or more edges; the result is
closed under the cascade rule and lies in every set that is closed under
it. -/
theorem C16_minimal (st : ModFolderModel) (hw : WellIndexed st)
    (hv : ValidMappings st) (hd : DistinctModIds st) (action : EnableAction)
    (hact : action = EnableAction.ENABLE ∨ action = EnableAction.DISABLE)
    (indexes : List QModelIndex) (hsel : ValidSelection st indexes)
    (fuel : Nat) (hfuel : st.m_resources.length < fuel) :
    ∃ r, getAffectedMods st fuel indexes action = some r ∧
      ForcedChain st action (st.selectedMods indexes) r ∧
      (∀ idx ∈ r, Reaches st action (st.selectedMods indexes) idx.row) ∧
      CascadeClosed st action (st.selectedMods indexes) (rowsOf r) ∧
      ∀ extra, CascadeClosed st action (st.selectedMods indexes) extra →
        ∀ p ∈ rowsOf r, p ∈ extra := by
  have hne : action ≠ EnableAction.TOGGLE := by
    rcases hact with h | h <;> rw [h] <;> decide
  obtain ⟨r, hr, hchain, hleast⟩ := forced_and_least st hw hv action hne indexes fuel hfuel
  obtain ⟨r', hr', hclosed⟩ := cascade_closed st hw hv hd action hne indexes hsel fuel hfuel
  have hrr : r' = r := by
    rw [hr] at hr'
    exact (Option.some.inj hr').symm
  rw [hrr] at hclosed
  exact ⟨r, hr, hchain,
    forcedChain_reaches st action _ r _ (fun p hp => Or.inl hp) hchain, hclosed, hleast⟩

/-- C16 (amended) at the diamond where C is already enabled: enabling A
returns B (a neighbour of A) and then D (a neighbour of B). -/
theorem C16_minimal_witness :
    WellIndexed (onParseFinished (diamondModel true)) ∧
    ValidMappings (onParseFinished (diamondModel true)) ∧
    DistinctModIds (onParseFinished (diamondModel true)) ∧
    ValidSelection (onParseFinished (diamondModel true)) [⟨0, 0⟩] ∧
    ∃ r, getAffectedMods (onParseFinished (diamondModel true)) 5 [⟨0, 0⟩]
        EnableAction.ENABLE = some r ∧
      ForcedChain (onParseFinished (diamondModel true)) EnableAction.ENABLE
        ((onParseFinished (diamondModel true)).selectedMods [⟨0, 0⟩]) r ∧
      (∀ idx ∈ r, Reaches (onParseFinished (diamondModel true)) EnableAction.ENABLE
        ((onParseFinished (diamondModel true)).selectedMods [⟨0, 0⟩]) idx.row) ∧
      CascadeClosed (onParseFinished (diamondModel true)) EnableAction.ENABLE
        ((onParseFinished (diamondModel true)).selectedMods [⟨0, 0⟩]) (rowsOf r) ∧
      ∀ extra, CascadeClosed (onParseFinished (diamondModel true)) EnableAction.ENABLE
          ((onParseFinished (diamondModel true)).selectedMods [⟨0, 0⟩]) extra →
        ∀ p ∈ rowsOf r, p ∈ extra :=
  ⟨by decide, by decide, by decide, by decide,
   C16_minimal (onParseFinished (diamondModel true)) (by decide) (by decide)
     (by decide) EnableAction.ENABLE (Or.inl rfl) [⟨0, 0⟩] (by decide) 5 (by decide)⟩

/-! ## The first match of a remote dependency -/

theorem find?_range_least (p : Nat → Bool) (n b : Nat) (hb : b < n) (hpb : p b = true)
    (hleast : ∀ m, m < b → p m = false) : (List.range n).find? p = some b := by
  induction n with
  | zero => exact absurd hb (Nat.not_lt_zero _)
  | succ n ih =>
    rw [List.range_succ, List.find?_append]
    by_cases hbn : b < n
    · rw [ih hbn]; rfl
    · have hbeq : b = n := by omega
      subst hbeq
      have hnone : (List.range b).find? p = none := by
        rw [List.find?_eq_none]
        intro m hm
        simp [hleast m (List.mem_range.mp hm)]
      rw [hnone]
      simp [hpb]

theorem findByProjectID_pred_iff (st : ModFolderModel) (provider : ResourceProvider)
    (projectId : QVariant) (m : ModPtr) :
    (match (st.at m).metadata with
      | none => false
      | some md => md.provider == provider && md.project_id == projectId) = true
      ↔ Matches st provider projectId m := by
  unfold Matches
  cases (st.at m).metadata with
  | none => simp
  | some md => simp

theorem findByProjectID_matches {st : ModFolderModel} {mods : List ModPtr}
    {projectId : QVariant} {provider : ResourceProvider} {d : ModPtr}
    (h : findByProjectID st mods projectId provider = some d) :
    Matches st provider projectId d := by
  unfold findByProjectID at h
  have h' := List.find?_some h
  exact (findByProjectID_pred_iff st provider projectId d).mp h'

/-- The lookup by project id answers the earliest matching mod of the
collection. -/
theorem findByProjectID_first (st : ModFolderModel) (provider : ResourceProvider)
    (projectId : QVariant) (b : ModPtr) (hb : b ∈ st.allMods)
    (hmatch : Matches st provider projectId b)
    (hfirst : ∀ m ∈ st.allMods, Matches st provider projectId m → b ≤ m) :
    findByProjectID st st.allMods projectId provider = some b := by
  unfold findByProjectID ModFolderModel.allMods
  apply find?_range_least _ _ b (mem_allMods.mp hb)
  · exact (findByProjectID_pred_iff st provider projectId b).mpr hmatch
  · intro m hm
    have hmn : m ∈ st.allMods := mem_allMods.mpr (Nat.lt_trans hm (mem_allMods.mp hb))
    by_contra hp
    have hp' := (findByProjectID_pred_iff st provider projectId m).mp
      (by simpa using hp)
    exact absurd hm (Nat.not_lt.mpr (hfirst m hmn hp'))

theorem matches_project_id {st : ModFolderModel} {provider : ResourceProvider}
    {p₁ p₂ : QVariant} {m : ModPtr} (h₁ : Matches st provider p₁ m)
    (h₂ : Matches st provider p₂ m) : p₁ = p₂ := by
  unfold Matches at h₁ h₂
  cases hmd : (st.at m).metadata with
  | none => simp [hmd] at h₁
  | some md =>
    simp only [hmd] at h₁ h₂
    rw [← h₁.2, ← h₂.2]

/-- C14 as stated fails where mods share a `mod_id`: A declares "b" and
requires project "PB"; the earliest mod with that project is the second file
of mod "b", but the declared dependency resolves to the first file, which
stands earlier in `m_requires["a"]`, and `removeDuplicates` drops the second
file as a duplicate `mod_id`. No edge from A to the earliest match is left. -/
theorem C14_counterexample :
    MappingsEmpty shadowedModel ∧ shadowedModel.hasPendingParseTasks = false ∧
    Matches shadowedModel ResourceProvider.MODRINTH "PB" 2 ∧
    Matches shadowedModel ResourceProvider.MODRINTH "PB" 3 ∧
    ¬ Matches shadowedModel ResourceProvider.MODRINTH "PB" 1 ∧
    findByProjectID shadowedModel shadowedModel.allMods "PB" ResourceProvider.MODRINTH
      = some 2 ∧
    (onParseFinished shadowedModel).m_requires.value "a" = [1] ∧
    2 ∉ (onParseFinished shadowedModel).m_requires.value (shadowedModel.at 0).mod_id := by
  decide

/-- C14, amended. First-match policy for a collection with pairwise distinct
`mod_id`s: let A have metadata with a `REQUIRED` entry, and let B be the
earliest mod in collection order whose metadata has the provider of A and that
`addonId` as `project_id`. After `onParseFinished` on empty mappings, B is in
`m_requires[A.mod_id]`, and a later mod C with the same provider and
`project_id` is in it only if another entry resolves to it, which can only be
a declared dependency of A. -/
theorem C14_first_match (st : ModFolderModel)
    (hd : DistinctModIds st) (he : MappingsEmpty st)
    (hp : st.hasPendingParseTasks = false)
    (a : ModPtr) (ha : a ∈ st.allMods) (md : Metadata)
    (hmd : (st.at a).metadata = some md) (dep : Dependency)
    (hdep : dep ∈ md.dependencies) (hreq : dep.type = DependencyType.REQUIRED)
    (b : ModPtr) (hb : b ∈ st.allMods) (hmatch : Matches st md.provider dep.addonId b)
    (hfirst : ∀ m ∈ st.allMods, Matches st md.provider dep.addonId m → b ≤ m) :
    findByProjectID st st.allMods dep.addonId md.provider = some b ∧
    b ∈ (onParseFinished st).m_requires.value (st.at a).mod_id ∧
    ∀ c ∈ st.allMods, Matches st md.provider dep.addonId c → c ≠ b →
      (c ∈ (onParseFinished st).m_requires.value (st.at a).mod_id ↔
        DeclaresEdge st a c) := by
  have hfind := findByProjectID_first st md.provider dep.addonId b hb hmatch hfirst
  have hexact := edgeExact_of_distinct st hd he hp
  refine ⟨hfind, ?_, ?_⟩
  · rw [hexact a ha b hb]
    right
    unfold MetadataEdge
    rw [hmd]
    exact ⟨dep, hdep, hreq, hfind⟩
  · intro c hc hcm hcb
    rw [hexact a ha c hc]
    constructor
    · rintro (h | h)
      · exact h
      · exfalso
        unfold MetadataEdge at h
        rw [hmd] at h
        obtain ⟨dep', -, -, hfind'⟩ := h
        have hcm' := findByProjectID_matches hfind'
        have hsame : dep'.addonId = dep.addonId := matches_project_id hcm' hcm
        rw [hsame, hfind] at hfind'
        exact hcb (Option.some.inj hfind').symm
    · exact Or.inl

/-- C14 (amended) at a collection where B and C both carry the project that A
requires: the edge goes to B, the earlier one, and not to C. -/
theorem C14_first_match_witness :
    DistinctModIds ambiguousModel ∧ MappingsEmpty ambiguousModel ∧
    ambiguousModel.hasPendingParseTasks = false ∧
    Matches ambiguousModel ResourceProvider.MODRINTH "PB" 1 ∧
    Matches ambiguousModel ResourceProvider.MODRINTH "PB" 2 ∧
    (onParseFinished ambiguousModel).m_requires.value "a" = [1] ∧
    (findByProjectID ambiguousModel ambiguousModel.allMods
        (⟨"PB", DependencyType.REQUIRED⟩ : Dependency).addonId ResourceProvider.MODRINTH
        = some 1 ∧
     1 ∈ (onParseFinished ambiguousModel).m_requires.value (ambiguousModel.at 0).mod_id ∧
     ∀ c ∈ ambiguousModel.allMods,
       Matches ambiguousModel ResourceProvider.MODRINTH
         (⟨"PB", DependencyType.REQUIRED⟩ : Dependency).addonId c → c ≠ 1 →
       (c ∈ (onParseFinished ambiguousModel).m_requires.value (ambiguousModel.at 0).mod_id ↔
         DeclaresEdge ambiguousModel 0 c)) :=
  ⟨by decide, by decide, by decide, by decide, by decide, by decide,
   C14_first_match ambiguousModel (by decide) (by decide) (by decide) 0 (by decide)
     { provider := ResourceProvider.MODRINTH, project_id := "PA",
       dependencies := [⟨"PB", DependencyType.REQUIRED⟩] }
     (by decide) ⟨"PB", DependencyType.REQUIRED⟩ (by decide) (by decide) 1 (by decide)
     (by decide) (by decide)⟩

/-! ## Cached counts, pending parse tasks, and a second rebuild -/

/-- C18. Cached counts: after `onParseFinished` has run (no parse task
pending), every mod M of the collection has `requiresCount` equal to the
length of the deduplicated list `m_requires[M.mod_id]` and `requiredByCount`
equal to the length of the deduplicated list `m_requiredBy[M.mod_id]` (so 0
for a mod whose lists are empty). -/
theorem C18_cached_counts (st : ModFolderModel) (hp : st.hasPendingParseTasks = false)
    (p : ModPtr) (hmem : p ∈ st.allMods) :
    ((onParseFinished st).at p).requiresCount
      = ((onParseFinished st).m_requires.value ((onParseFinished st).at p).mod_id).length ∧
    ((onParseFinished st).at p).requiredByCount
      = ((onParseFinished st).m_requiredBy.value
          ((onParseFinished st).at p).mod_id).length ∧
    (modIds (onParseFinished st)
      ((onParseFinished st).m_requires.value ((onParseFinished st).at p).mod_id)).Nodup ∧
    (modIds (onParseFinished st)
      ((onParseFinished st).m_requiredBy.value ((onParseFinished st).at p).mod_id)).Nodup := by
  have hlt := mem_allMods.mp hmem
  have hat : (onParseFinished st).at p
      = setCounts (onParseFinished st).m_requires (onParseFinished st).m_requiredBy
          (st.at p) := by
    apply at_map st _ _ p _ hlt
    simp [onParseFinished, hp]
  refine ⟨?_, ?_, ?_, ?_⟩
  · rw [hat]; rfl
  · rw [hat]; rfl
  · rw [onParseFinished_modIds, onParseFinished_requires_value st hp]
    exact nodup_modIds_removeDuplicatesAux st [] _
  · rw [onParseFinished_modIds, onParseFinished_requiredBy_value st hp]
    exact nodup_modIds_removeDuplicatesAux st [] _

/-- C18 at the chain: B requires one mod and is required by one. -/
theorem C18_cached_counts_witness :
    (chainModel false).hasPendingParseTasks = false ∧ 1 ∈ (chainModel false).allMods ∧
    ((onParseFinished (chainModel false)).at 1).requiresCount = 1 ∧
    ((onParseFinished (chainModel false)).at 1).requiredByCount = 1 ∧
    ((onParseFinished (chainModel false)).at 2).requiresCount = 0 ∧
    (((onParseFinished (chainModel false)).at 1).requiresCount
      = ((onParseFinished (chainModel false)).m_requires.value
          ((onParseFinished (chainModel false)).at 1).mod_id).length ∧
    ((onParseFinished (chainModel false)).at 1).requiredByCount
      = ((onParseFinished (chainModel false)).m_requiredBy.value
          ((onParseFinished (chainModel false)).at 1).mod_id).length ∧
    (modIds (onParseFinished (chainModel false))
      ((onParseFinished (chainModel false)).m_requires.value
        ((onParseFinished (chainModel false)).at 1).mod_id)).Nodup ∧
    (modIds (onParseFinished (chainModel false))
      ((onParseFinished (chainModel false)).m_requiredBy.value
        ((onParseFinished (chainModel false)).at 1).mod_id)).Nodup) :=
  ⟨by decide, by decide, by decide, by decide, by decide,
   C18_cached_counts (chainModel false) (by decide) 1 (by decide)⟩

/-- C19. No partial-batch rebuild: while parse tasks are pending,
`onParseFinished` changes nothing: the model it leaves is the model it found,
mappings and the cached counts of every mod included. -/
theorem C19_pending_noop (st : ModFolderModel) (hp : st.hasPendingParseTasks = true) :
    onParseFinished st = st ∧
    (onParseFinished st).m_requires = st.m_requires ∧
    (onParseFinished st).m_requiredBy = st.m_requiredBy ∧
    ∀ p, ((onParseFinished st).at p).requiresCount = (st.at p).requiresCount ∧
      ((onParseFinished st).at p).requiredByCount = (st.at p).requiredByCount := by
  have h : onParseFinished st = st := by simp [onParseFinished, hp]
  rw [h]
  exact ⟨rfl, rfl, rfl, fun _ => ⟨rfl, rfl⟩⟩

/-- C19 at the chain while the parse task with ticket 7 is still running. -/
theorem C19_pending_noop_witness :
    ({ chainModel false with m_active_parse_tasks := [7] } :
        ModFolderModel).hasPendingParseTasks = true ∧
    (onParseFinished { chainModel false with m_active_parse_tasks := [7] }
        = { chainModel false with m_active_parse_tasks := [7] } ∧
      (onParseFinished { chainModel false with m_active_parse_tasks := [7] }).m_requires
        = ({ chainModel false with m_active_parse_tasks := [7] } : ModFolderModel).m_requires ∧
      (onParseFinished { chainModel false with m_active_parse_tasks := [7] }).m_requiredBy
        = ({ chainModel false with m_active_parse_tasks := [7] } :
            ModFolderModel).m_requiredBy ∧
      ∀ p,
        ((onParseFinished { chainModel false with m_active_parse_tasks := [7] }).at
            p).requiresCount
          = (({ chainModel false with m_active_parse_tasks := [7] } : ModFolderModel).at
              p).requiresCount ∧
        ((onParseFinished { chainModel false with m_active_parse_tasks := [7] }).at
            p).requiredByCount
          = (({ chainModel false with m_active_parse_tasks := [7] } : ModFolderModel).at
              p).requiredByCount) :=
  ⟨by decide, C19_pending_noop { chainModel false with m_active_parse_tasks := [7] } (by decide)⟩

theorem removeDuplicatesAux_congr (st : ModFolderModel) (s₁ s₂ : List QString)
    (hs : ∀ x, x ∈ s₁ ↔ x ∈ s₂) (l : List ModPtr) :
    removeDuplicatesAux st s₁ l = removeDuplicatesAux st s₂ l := by
  induction l generalizing s₁ s₂ with
  | nil => rfl
  | cons m ms ih =>
    by_cases hm : (st.at m).mod_id ∈ s₁
    · have hm' := (hs _).mp hm
      simp only [removeDuplicatesAux, hm, hm', if_true]
      exact ih s₁ s₂ hs
    · have hm' : (st.at m).mod_id ∉ s₂ := fun h => hm ((hs _).mpr h)
      simp only [removeDuplicatesAux, hm, hm', if_false]
      rw [ih ((st.at m).mod_id :: s₁) ((st.at m).mod_id :: s₂)]
      intro x
      simp only [List.mem_cons, hs x]

theorem removeDuplicatesAux_append (st : ModFolderModel) (seen : List QString)
    (l₁ l₂ : List ModPtr) :
    removeDuplicatesAux st seen (l₁ ++ l₂)
      = removeDuplicatesAux st seen l₁
        ++ removeDuplicatesAux st (modIds st l₁ ++ seen) l₂ := by
  induction l₁ generalizing seen with
  | nil => simp [removeDuplicatesAux, modIds]
  | cons m ms ih =>
    rw [List.cons_append]
    by_cases hm : (st.at m).mod_id ∈ seen
    · have e₁ : removeDuplicatesAux st seen (m :: (ms ++ l₂))
          = removeDuplicatesAux st seen (ms ++ l₂) := by
        simp only [removeDuplicatesAux, hm, if_true]
      have e₂ : removeDuplicatesAux st seen (m :: ms) = removeDuplicatesAux st seen ms := by
        simp only [removeDuplicatesAux, hm, if_true]
      rw [e₁, e₂, ih seen]
      congr 1
      apply removeDuplicatesAux_congr
      intro x
      simp only [modIds, List.map_cons, List.mem_append, List.mem_cons]
      constructor
      · rintro (h | h)
        · exact Or.inl (Or.inr h)
        · exact Or.inr h
      · rintro ((h | h) | h)
        · exact Or.inr (h ▸ hm)
        · exact Or.inl h
        · exact Or.inr h
    · have e₁ : removeDuplicatesAux st seen (m :: (ms ++ l₂))
          = m :: removeDuplicatesAux st ((st.at m).mod_id :: seen) (ms ++ l₂) := by
        simp only [removeDuplicatesAux, hm, if_false]
      have e₂ : removeDuplicatesAux st seen (m :: ms)
          = m :: removeDuplicatesAux st ((st.at m).mod_id :: seen) ms := by
        simp only [removeDuplicatesAux, hm, if_false]
      rw [e₁, e₂, ih ((st.at m).mod_id :: seen), List.cons_append]
      congr 2
      apply removeDuplicatesAux_congr
      intro x
      simp only [modIds, List.map_cons, List.mem_append, List.mem_cons]
      tauto

theorem removeDuplicatesAux_eq_nil (st : ModFolderModel) (seen : List QString)
    (l : List ModPtr) (h : ∀ x ∈ modIds st l, x ∈ seen) :
    removeDuplicatesAux st seen l = [] := by
  induction l with
  | nil => rfl
  | cons m ms ih =>
    have hm : (st.at m).mod_id ∈ seen := h _ (by simp [modIds])
    simp only [removeDuplicatesAux, hm, if_true]
    exact ih (fun x hx => h x (by simp only [modIds, List.map_cons, List.mem_cons] at hx ⊢
                                  exact Or.inr hx))

/-- Appending a list to its deduplicated form and deduplicating again gives
the deduplicated form. -/
theorem removeDuplicates_append_self (st : ModFolderModel) (l : List ModPtr) :
    removeDuplicates st (removeDuplicates st l ++ l) = removeDuplicates st l := by
  unfold removeDuplicates
  have h₁ := removeDuplicatesAux_append st [] (removeDuplicatesAux st [] l) l
  have h₂ : removeDuplicatesAux st (modIds st (removeDuplicatesAux st [] l) ++ []) l = [] := by
    apply removeDuplicatesAux_eq_nil
    intro x hx
    rw [List.append_nil]
    exact (mem_modIds_removeDuplicates st l x).mpr hx
  rw [h₁, h₂, removeDuplicatesAux_idem, List.append_nil]

theorem removeDuplicates_congr (st st' : ModFolderModel)
    (h : ∀ p, (st'.at p).mod_id = (st.at p).mod_id) (l : List ModPtr) :
    removeDuplicates st' l = removeDuplicates st l := by
  unfold removeDuplicates
  generalize ([] : List QString) = seen
  induction l generalizing seen with
  | nil => rfl
  | cons m ms ih => simp only [removeDuplicatesAux, h, ih]

theorem edgeList_congr (st st' : ModFolderModel)
    (h : ∀ p, (st'.at p).mod_id = (st.at p).mod_id ∧
      (st'.at p).dependencies = (st.at p).dependencies ∧
      (st'.at p).metadata = (st.at p).metadata)
    (mods ms : List ModPtr) : edgeList st' mods ms = edgeList st mods ms := by
  have hfind : ∀ dep, findById st' mods dep = findById st mods dep := by
    intro dep; simp only [findById, (h _).1]
  have hproj : ∀ x pr, findByProjectID st' mods x pr = findByProjectID st mods x pr := by
    intro x pr; simp only [findByProjectID, (h _).2.2]
  unfold edgeList resolvedDeps declaredDeps metadataDeps
  simp only [(h _).2.1, (h _).2.2, hfind, hproj]

/-- C20. The rebuild is idempotent on an unchanged collection: after
`onParseFinished` has run on empty mappings (no parse task pending), a second
run leaves every list of `m_requires` and of `m_requiredBy`, the order inside
the list included, and the mods with their cached counts as the first run
left them. -/
theorem C20_rebuild_idempotent (st : ModFolderModel) (he : MappingsEmpty st)
    (hp : st.hasPendingParseTasks = false) :
    (∀ k, (onParseFinished (onParseFinished st)).m_requires.value k
        = (onParseFinished st).m_requires.value k) ∧
    (∀ k, (onParseFinished (onParseFinished st)).m_requiredBy.value k
        = (onParseFinished st).m_requiredBy.value k) ∧
    (onParseFinished (onParseFinished st)).m_resources = (onParseFinished st).m_resources := by
  have hp' : (onParseFinished st).hasPendingParseTasks = false := by
    have htasks : (onParseFinished st).m_active_parse_tasks = st.m_active_parse_tasks := by
      unfold onParseFinished
      split <;> rfl
    unfold ModFolderModel.hasPendingParseTasks at hp ⊢
    rw [htasks]; exact hp
  have hat := onParseFinished_at st
  have hedges : edgeList (onParseFinished st) (onParseFinished st).allMods
      (onParseFinished st).allMods = edgeList st st.allMods st.allMods := by
    rw [onParseFinished_allMods]
    exact edgeList_congr st _ (fun p => ⟨(hat p).1, (hat p).2.2.2.1, (hat p).2.2.2.2⟩) _ _
  have hreq : ∀ k, (onParseFinished (onParseFinished st)).m_requires.value k
      = (onParseFinished st).m_requires.value k := by
    intro k
    rw [onParseFinished_requires_value _ hp', hedges,
      removeDuplicates_congr st _ (fun p => (hat p).1)]
    simp only [onParseFinished_mod_id]
    rw [onParseFinished_requires_value st hp, he.1]
    simp only [QHash.value, List.nil_append]
    exact removeDuplicates_append_self st _
  have hreqBy : ∀ k, (onParseFinished (onParseFinished st)).m_requiredBy.value k
      = (onParseFinished st).m_requiredBy.value k := by
    intro k
    rw [onParseFinished_requiredBy_value _ hp', hedges,
      removeDuplicates_congr st _ (fun p => (hat p).1)]
    simp only [onParseFinished_mod_id]
    rw [onParseFinished_requiredBy_value st hp, he.2]
    simp only [QHash.value, List.nil_append]
    exact removeDuplicates_append_self st _
  refine ⟨hreq, hreqBy, ?_⟩
  have hres1 : (onParseFinished st).m_resources
      = st.m_resources.map (setCounts (onParseFinished st).m_requires
          (onParseFinished st).m_requiredBy) := by
    simp [onParseFinished, hp]
  have hres2 : (onParseFinished (onParseFinished st)).m_resources
      = (onParseFinished st).m_resources.map
          (setCounts (onParseFinished (onParseFinished st)).m_requires
            (onParseFinished (onParseFinished st)).m_requiredBy) := by
    generalize onParseFinished st = st1 at hp' ⊢
    simp [onParseFinished, hp']
  rw [hres2, hres1, List.map_map]
  apply List.map_congr_left
  intro m _
  simp [setCounts, hreq, hreqBy]

/-- C20 at the collection where A requires B three times over. -/
theorem C20_rebuild_idempotent_witness :
    MappingsEmpty doubleEdgeModel ∧ doubleEdgeModel.hasPendingParseTasks = false ∧
    onParseFinished (onParseFinished doubleEdgeModel) = onParseFinished doubleEdgeModel ∧
    ((∀ k, (onParseFinished (onParseFinished doubleEdgeModel)).m_requires.value k
        = (onParseFinished doubleEdgeModel).m_requires.value k) ∧
    (∀ k, (onParseFinished (onParseFinished doubleEdgeModel)).m_requiredBy.value k
        = (onParseFinished doubleEdgeModel).m_requiredBy.value k) ∧
    (onParseFinished (onParseFinished doubleEdgeModel)).m_resources
      = (onParseFinished doubleEdgeModel).m_resources) :=
  ⟨by decide, by decide, by decide,
   C20_rebuild_idempotent doubleEdgeModel (by decide) (by decide)⟩

end ModFolder
